import Mathlib

/-!
Shallow embedding of the section-level sync core of `ai-tooling-resources`
(`src/ai_tooling/utils.py`, `src/ai_tooling/update.py`, `src/ai_tooling/install.py`).

Python strings are modelled as `List Char` (`Str`), i.e. sequences of Unicode
scalar values, documents as their full text, and file-system state as explicit
record fields.  Character-class tests (`\w` in the regex `^## \w`, `str.strip`)
are modelled on their ASCII fragment, which is the fragment every document in
the repository and every test below exercises.
-/

set_option maxRecDepth 100000

namespace AiTooling

abbrev Str := List Char

/-- ASCII fragment of Python's regex class `\w` (word character). -/
def isWordChar (c : Char) : Bool := c.isAlphanum || c == '_'

/-- ASCII fragment of the whitespace set stripped by Python's `str.strip()`. -/
def isStripChar (c : Char) : Bool := c == ' ' || c == '\t' || c == '\n' || c == '\r'

/-- Python `s.strip()`: drop leading and trailing whitespace. -/
def pystrip (s : Str) : Str :=
  ((s.dropWhile isStripChar).reverse.dropWhile isStripChar).reverse

/-- Python `content.split("\n")` (split on every newline; `"" ↦ [""]`). -/
def splitLines : Str → List Str
  | [] => [[]]
  | c :: cs =>
    if c = '\n' then [] :: splitLines cs
    else
      match splitLines cs with
      | [] => [[c]]
      | l :: ls => (c :: l) :: ls

/-- Python `"\n".join(lines)`. -/
def joinLines : List Str → Str
  | [] => []
  | [l] => l
  | l :: ls => l ++ '\n' :: joinLines ls

/-- `p` is a prefix of `s` (Python `s.startswith(p)`). -/
def hasPre : Str → Str → Bool
  | [], _ => true
  | _ :: _, [] => false
  | p :: ps, c :: cs => p == c && hasPre ps cs

/-- Python `line.startswith("## ")`. -/
def startsH2 (l : Str) : Bool := hasPre ['#', '#', ' '] l

/-- Python `line.startswith("# ")`. -/
def startsH1 (l : Str) : Bool := hasPre ['#', ' '] l

/-- Python `re.match(r"^## \w", line)` is truthy: `"## "` followed by a word
character. -/
def isSectionStart (l : Str) : Bool :=
  match l with
  | a :: b :: sp :: c :: _ => a == '#' && b == '#' && sp == ' ' && isWordChar c
  | _ => false

/-- The header line `"## " + name` used by `replace_section_in_file`. -/
def h2hdr (name : Str) : Str := '#' :: '#' :: ' ' :: name

/-! ### SHA-256 (`hashlib.sha256(content.encode()).hexdigest()`)

Word values are `Nat`s kept below `2^32`; every operation reduces
structurally so that concrete digests evaluate in the kernel. -/

def w32 (n : Nat) : Nat := n % 4294967296

def rotr32 (x n : Nat) : Nat := w32 ((x >>> n) ||| (x <<< (32 - n)))

def not32 (x : Nat) : Nat := 4294967295 - x

def add32 (a b : Nat) : Nat := w32 (a + b)

def ch32 (x y z : Nat) : Nat := (x &&& y) ^^^ (not32 x &&& z)

def maj32 (x y z : Nat) : Nat := (x &&& y) ^^^ (x &&& z) ^^^ (y &&& z)

def bigS0 (x : Nat) : Nat := rotr32 x 2 ^^^ rotr32 x 13 ^^^ rotr32 x 22

def bigS1 (x : Nat) : Nat := rotr32 x 6 ^^^ rotr32 x 11 ^^^ rotr32 x 25

def smallS0 (x : Nat) : Nat := rotr32 x 7 ^^^ rotr32 x 18 ^^^ (x >>> 3)

def smallS1 (x : Nat) : Nat := rotr32 x 17 ^^^ rotr32 x 19 ^^^ (x >>> 10)

def shaK : List Nat :=
  [1116352408, 1899447441, 3049323471, 3921009573,
   961987163, 1508970993, 2453635748, 2870763221,
   3624381080, 310598401, 607225278, 1426881987,
   1925078388, 2162078206, 2614888103, 3248222580,
   3835390401, 4022224774, 264347078, 604807628,
   770255983, 1249150122, 1555081692, 1996064986,
   2554220882, 2821834349, 2952996808, 3210313671,
   3336571891, 3584528711, 113926993, 338241895,
   666307205, 773529912, 1294757372, 1396182291,
   1695183700, 1986661051, 2177026350, 2456956037,
   2730485921, 2820302411, 3259730800, 3345764771,
   3516065817, 3600352804, 4094571909, 275423344,
   430227734, 506948616, 659060556, 883997877,
   958139571, 1322822218, 1537002063, 1747873779,
   1955562222, 2024104815, 2227730452, 2361852424,
   2428436474, 2756734187, 3204031479, 3329325298]

def shaH0 : List Nat :=
  [1779033703, 3144134277, 1013904242, 2773480762,
   1359893119, 2600822924, 528734635, 1541459225]

/-- Big-endian byte representation of `n` in exactly `k` bytes. -/
def bytesBE : Nat → Nat → List Nat
  | 0, _ => []
  | k + 1, n => bytesBE k (n / 256) ++ [n % 256]

/-- Group bytes into big-endian 32-bit words (first argument is fuel). -/
def toWords : Nat → List Nat → List Nat
  | 0, _ => []
  | _, [] => []
  | fuel + 1, b0 :: rest =>
    match rest with
    | b1 :: b2 :: b3 :: rest2 =>
      (((b0 * 256 + b1) * 256 + b2) * 256 + b3) :: toWords fuel rest2
    | _ => []

/-- Next word of the SHA-256 message schedule. -/
def extendOne (w : List Nat) : Nat :=
  let i := w.length
  add32 (add32 (w.getD (i - 16) 0) (smallS0 (w.getD (i - 15) 0)))
        (add32 (w.getD (i - 7) 0) (smallS1 (w.getD (i - 2) 0)))

/-- Extend the 16-word schedule by `k` more words. -/
def buildW (w : List Nat) : Nat → List Nat
  | 0 => w
  | k + 1 => buildW (w ++ [extendOne w]) k

/-- One SHA-256 compression round; `kw` is `K[i] + W[i] mod 2^32`. -/
def roundStep (kw : Nat) : List Nat → List Nat
  | [a, b, c, d, e, f, g, hh] =>
    let t1 := add32 hh (add32 (bigS1 e) (add32 (ch32 e f g) kw))
    let t2 := add32 (bigS0 a) (maj32 a b c)
    [add32 t1 t2, a, b, c, add32 d t1, e, f, g]
  | st => st

/-- Compress one 64-byte chunk into the running hash state. -/
def compressChunk (hs : List Nat) (chunk : List Nat) : List Nat :=
  let w := buildW (toWords chunk.length chunk) 48
  let kw := List.zipWith add32 shaK w
  let st := kw.foldl (fun s x => roundStep x s) hs
  List.zipWith add32 hs st

/-- SHA-256 padding: `0x80`, zeros to 56 mod 64, 8-byte big-endian bit length. -/
def padMsg (m : List Nat) : List Nat :=
  let padlen := (64 + 56 - (m.length + 1) % 64) % 64
  m ++ 0x80 :: List.replicate padlen 0 ++ bytesBE 8 (m.length * 8)

/-- Split into 64-byte chunks (first argument is fuel). -/
def chunksOf64 : Nat → List Nat → List (List Nat)
  | 0, _ => []
  | _, [] => []
  | fuel + 1, bs => bs.take 64 :: chunksOf64 fuel (bs.drop 64)

def sha256bytes (m : List Nat) : List Nat :=
  let p := padMsg m
  (chunksOf64 p.length p).foldl compressChunk shaH0

def hexChar (n : Nat) : Char :=
  if n < 10 then Char.ofNat (48 + n) else Char.ofNat (87 + n)

/-- Lower-case hex representation of `n` in exactly `k` digits. -/
def hexDigits : Nat → Nat → List Char
  | 0, _ => []
  | k + 1, n => hexDigits k (n / 16) ++ [hexChar (n % 16)]

def sha256hex (m : List Nat) : Str := (sha256bytes m).flatMap (hexDigits 8)

/-- UTF-8 encoding of one character (Python `str.encode()`). -/
def utf8EncodeChar (c : Char) : List Nat :=
  let n := c.toNat
  if n < 0x80 then [n]
  else if n < 0x800 then [0xC0 + n / 64, 0x80 + n % 64]
  else if n < 0x10000 then
    [0xE0 + n / 4096, 0x80 + (n / 64) % 64, 0x80 + n % 64]
  else
    [0xF0 + n / 262144, 0x80 + (n / 4096) % 64, 0x80 + (n / 64) % 64,
     0x80 + n % 64]

def utf8Bytes (s : Str) : List Nat := s.flatMap utf8EncodeChar

/-- `compute_section_hash` (utils.py): SHA-256 hex digest of the UTF-8
encoding of the content. -/
def compute_section_hash (s : Str) : Str := sha256hex (utf8Bytes s)

/-! ### Section Parser (`parse_markdown_sections`, utils.py) -/

/-- Python `dict` assignment `d[k] = v`: overwrite in place if the key is
present (keeping its position), otherwise append. -/
def dictInsert {α : Type} (k : Str) (v : α) : List (Str × α) → List (Str × α)
  | [] => [(k, v)]
  | (k1, v1) :: rest =>
    if k1 = k then (k, v) :: rest else (k1, v1) :: dictInsert k v rest

/-- Python `d.get(k)`: value of the first (unique, for a dict) matching key. -/
def alookup {α : Type} (k : Str) : List (Str × α) → Option α
  | [] => none
  | (k1, v1) :: rest => if k1 = k then some v1 else alookup k rest

/-- The keys of an association list, in order. -/
def keysOf {α : Type} (l : List (Str × α)) : List Str := l.map Prod.fst

/-- The `for line in content.split("\n")` loop of `parse_markdown_sections`,
with its `current_section` / `current_content` / `sections` state and the
final flush of the last open section. -/
def parseLoop : List Str → Option Str → List Str → List (Str × Str) → List (Str × Str)
  | [], none, _, secs => secs
  | [], some n, acc, secs => dictInsert n (joinLines acc) secs
  | l :: ls, cur, acc, secs =>
    if isSectionStart l then
      parseLoop ls (some (pystrip (l.drop 3))) []
        (match cur with
         | none => secs
         | some n => dictInsert n (joinLines acc) secs)
    else
      match cur with
      | none => parseLoop ls none acc secs
      | some n => parseLoop ls (some n) (acc ++ [l]) secs

def parseLines (ls : List Str) : List (Str × Str) := parseLoop ls none [] []

/-- `parse_markdown_sections` applied to the text of an existing file. -/
def parseDoc (s : Str) : List (Str × Str) := parseLines (splitLines s)

/-- `parse_markdown_sections(file_path)`: a missing file parses to `{}`. -/
def parse_markdown_sections : Option Str → List (Str × Str)
  | none => []
  | some s => parseDoc s

/-! ### `replace_section_in_file` (update.py) -/

/-- The line-scanning loop of `replace_section_in_file`.  The flag is the
"currently skipping the replaced section's old content" state: while set,
lines are dropped until one starts with `"## "` or `"# "`; that boundary
line is then re-examined normally (so a later duplicate header is replaced
again, exactly as the Python `while` loop does). -/
def replAux (hd : Str) (tls : List Str) : Bool → List Str → List Str
  | _, [] => []
  | sk, l :: ls =>
    if sk && !(startsH2 l || startsH1 l) then replAux hd tls sk ls
    else if l = hd then hd :: (tls ++ replAux hd tls true ls)
    else l :: replAux hd tls false ls

/-- `replace_section_in_file`: a missing file is left untouched; otherwise
the content is split into lines, every section span starting at a line equal
to `"## " + name` is replaced by the new content's lines, and the lines are
re-joined and written back. -/
def replace_section_in_file (file : Option Str) (name newContent : Str) : Option Str :=
  match file with
  | none => none
  | some content =>
    some (joinLines (replAux (h2hdr name) (splitLines newContent) false (splitLines content)))

/-! ### Metadata Store (`create_metadata` / `load_metadata` /
`update_metadata_hash`, utils.py)

The metadata file is modelled by the states the code distinguishes: missing,
present but unparseable JSON, or a parsed object whose `"sections"` key (the
only field the sync logic reads or writes) may be present or absent.  The
constant `version` / `installed_at` / `source_repo` fields are not modelled. -/

inductive MetaFile
  | absent
  | malformed
  | valid (sections? : Option (List (Str × Str)))
  deriving DecidableEq

/-- `create_metadata`: record the hash of every parsed section. -/
def create_metadata (sections : List (Str × Str)) : MetaFile :=
  .valid (some (sections.map fun p => (p.1, compute_section_hash p.2)))

/-- `load_metadata`: `None` when the file is missing or fails to parse. -/
def load_metadata : MetaFile → Option (Option (List (Str × Str)))
  | .absent => none
  | .malformed => none
  | .valid s => some s

/-- `update_metadata_hash`: missing file returns early; a JSON parse failure
or a missing `"sections"` key is swallowed (`except ...: pass`); otherwise
`metadata["sections"][section_name] = new_hash` inserts or overwrites the
entry and the record is rewritten. -/
def update_metadata_hash (m : MetaFile) (name newHash : Str) : MetaFile :=
  match m with
  | .absent => .absent
  | .malformed => .malformed
  | .valid none => .valid none
  | .valid (some secs) => .valid (some (dictInsert name newHash secs))

/-! ### Sync Engine (`update_file`, update.py; `install_file`, install.py) -/

/-- The files `update_file` touches for one tracked document: the target
document, its metadata record, and the resolved template (each `none` when
the corresponding file does not exist). -/
structure SyncState where
  target : Option Str
  meta : MetaFile
  template : Option Str
  deriving DecidableEq

/-- The `for section_name, template_content in template_sections.items()`
loop of `update_file`.  `origSecs` is the in-memory `metadata.get("sections",
{})` and `curSecs` the in-memory parse of the target, both loaded once before
the loop; the file-system state `st` evolves as sections are rewritten. -/
def updateLoop (origSecs curSecs : List (Str × Str)) (dry : Bool) :
    List (Str × Str) → SyncState → Nat → Nat → List Str → SyncState × Nat × Nat × List Str
  | [], st, u, s, names => (st, u, s, names)
  | (name, tcont) :: rest, st, u, s, names =>
    match alookup name origSecs with
    | none => updateLoop origSecs curSecs dry rest st u s names
    | some origHash =>
      if compute_section_hash ((alookup name curSecs).getD []) = origHash then
        if dry then updateLoop origSecs curSecs dry rest st (u + 1) s names
        else
          updateLoop origSecs curSecs dry rest
            { st with
              target := replace_section_in_file st.target name tcont,
              meta := update_metadata_hash st.meta name (compute_section_hash tcont) }
            (u + 1) s names
      else updateLoop origSecs curSecs dry rest st u (s + 1) (names ++ [name])

/-- `update_file`: missing target, missing/unreadable metadata, or missing
template abort with `(0, 0, [])`; otherwise both documents are parsed and the
per-section loop runs.  Returns the final file-system state together with
`(updated_count, skipped_count, skipped_names)`. -/
def update_file (st : SyncState) (dry : Bool) : SyncState × Nat × Nat × List Str :=
  match st.target with
  | none => (st, 0, 0, [])
  | some tgt =>
    match load_metadata st.meta with
    | none => (st, 0, 0, [])
    | some sections? =>
      match st.template with
      | none => (st, 0, 0, [])
      | some tpl =>
        updateLoop (sections?.getD []) (parseDoc tgt) dry (parseDoc tpl) st 0 0 []

/-- `install_file`: copy the template to the target verbatim, then create
metadata from the parse of the freshly written target. -/
def install_file (tpl : Str) : SyncState :=
  { target := some tpl, meta := create_metadata (parseDoc tpl), template := some tpl }

/-! ### Specification-side descriptions of the per-section decisions -/

/-- The template section `p` is classified *eligible for refresh*: its name
has a recorded fingerprint and the target's current content hashes to it. -/
def secMatches (origSecs curSecs : List (Str × Str)) (p : Str × Str) : Bool :=
  match alookup p.1 origSecs with
  | none => false
  | some oh => compute_section_hash ((alookup p.1 curSecs).getD []) == oh

/-- The template section `p` is classified *user-modified*: its name has a
recorded fingerprint but the target's current content hashes differently. -/
def secSkipped (origSecs curSecs : List (Str × Str)) (p : Str × Str) : Bool :=
  match alookup p.1 origSecs with
  | none => false
  | some oh => !(compute_section_hash ((alookup p.1 curSecs).getD []) == oh)

def refreshedOf (origSecs curSecs tplSecs : List (Str × Str)) : List (Str × Str) :=
  tplSecs.filter (secMatches origSecs curSecs)

def skippedOf (origSecs curSecs tplSecs : List (Str × Str)) : List Str :=
  (tplSecs.filter (secSkipped origSecs curSecs)).map (·.1)

/-- The accumulated file-system effect of refreshing the sections in `lst`
in order (replace the section body, then record the new hash). -/
def applyWet (st : SyncState) (lst : List (Str × Str)) : SyncState :=
  lst.foldl
    (fun st1 p =>
      { st1 with
        target := replace_section_in_file st1.target p.1 p.2,
        meta := update_metadata_hash st1.meta p.1 (compute_section_hash p.2) }) st

/-! ### Well-formed markdown documents

`MdDoc` is a structured view of a document: free preamble text followed by
named blocks.  `renderDoc` lays it out exactly as the tool itself writes
documents.  The well-formedness predicates delimit the document class on
which parser, replacer and metadata agree on block boundaries. -/

structure MdDoc where
  preamble : List Str
  blocks : List (Str × List Str)
  deriving DecidableEq

def flatBlocks (bs : List (Str × List Str)) : List Str :=
  bs.flatMap fun p => h2hdr p.1 :: p.2

def renderLines (d : MdDoc) : List Str := d.preamble ++ flatBlocks d.blocks

def renderDoc (d : MdDoc) : Str := joinLines (renderLines d)

/-- A usable section name: begins with a word character (so its header line
matches `^## \w`), is strip-invariant, and spans a single line. -/
def wfName (n : Str) : Bool :=
  (match n with | c :: _ => isWordChar c | [] => false) &&
  pystrip n == n && !(n.contains '\n')

def nlFree (l : Str) : Bool := !(l.contains '\n')

/-- A line that does not start a new parsed section. -/
def contentLineOk (l : Str) : Bool := nlFree l && !(isSectionStart l)

/-- A line that neither starts a section nor stops the replacer's skip. -/
def lineOk (l : Str) : Bool := nlFree l && !(startsH2 l) && !(startsH1 l)

/-- Document class on which the parse of `renderDoc` is exactly the block
list: preamble lines start no section, block names are usable and distinct,
content lines start no section. -/
def WfParse (d : MdDoc) : Prop :=
  (∀ l ∈ d.preamble, contentLineOk l = true) ∧
  (∀ p ∈ d.blocks, wfName p.1 = true ∧ ∀ l ∈ p.2, contentLineOk l = true) ∧
  (keysOf d.blocks).Nodup

/-- Document class on which parser and replacer agree on every block span:
additionally no preamble line looks like a header, no content line starts
with `"## "` or `"# "`, and every block has at least one content line. -/
def WfDoc (d : MdDoc) : Prop :=
  (∀ l ∈ d.preamble, nlFree l = true ∧ startsH2 l = false) ∧
  (∀ p ∈ d.blocks, wfName p.1 = true ∧ p.2 ≠ [] ∧ ∀ l ∈ p.2, lineOk l = true) ∧
  (keysOf d.blocks).Nodup

instance (d : MdDoc) : Decidable (WfParse d) := by
  unfold WfParse
  infer_instance

instance (d : MdDoc) : Decidable (WfDoc d) := by
  unfold WfDoc
  infer_instance

/-- Per-block content after refreshing the sections in `lst`. -/
def mapBlocks (d : MdDoc) (lst : List (Str × Str)) : MdDoc :=
  { d with
    blocks := d.blocks.map fun p =>
      (p.1, match alookup p.1 lst with
            | some t => splitLines t
            | none => p.2) }

/-- Recorded fingerprints after refreshing the sections in `lst`. -/
def foldRecs (recs lst : List (Str × Str)) : List (Str × Str) :=
  lst.foldl (fun r p => dictInsert p.1 (compute_section_hash p.2) r) recs

/-- The document named by claim C8: the blocks `"## " + name + "\n" +
content` concatenated with nothing in between. -/
def buildConcat (ps : List (Str × Str)) : Str :=
  ps.flatMap fun p => h2hdr p.1 ++ '\n' :: p.2

/-- The same blocks, each starting on a fresh line (newline separators). -/
def buildJoined (ps : List (Str × Str)) : Str :=
  joinLines (ps.flatMap fun p => h2hdr p.1 :: splitLines p.2)

/-- Lines the replacer's skip loop passes over (neither `"## "` nor `"# "`
starts the line): the suffix from the first boundary line on. -/
def skipTo (ls : List Str) : List Str :=
  ls.dropWhile fun l => !(startsH2 l || startsH1 l)

/-! ## Lemmas: lines -/

theorem nlFree_iff {l : Str} : nlFree l = true ↔ '\n' ∉ l := by
  simp [nlFree, List.contains, List.elem_iff]

theorem splitLines_ne_nil (s : Str) : splitLines s ≠ [] := by
  induction s with
  | nil => simp [splitLines]
  | cons c cs ih =>
    simp only [splitLines]
    split
    · simp
    · split
      · simp
      · simp

theorem mem_splitLines_nl {s : Str} {l : Str} (h : l ∈ splitLines s) : '\n' ∉ l := by
  induction s generalizing l with
  | nil =>
    simp [splitLines] at h
    simp [h]
  | cons c cs ih =>
    simp only [splitLines] at h
    by_cases hc : c = '\n'
    · rw [if_pos hc] at h
      rcases List.mem_cons.mp h with h1 | h1
      · simp [h1]
      · exact ih h1
    · rw [if_neg hc] at h
      rcases heq : splitLines cs with _ | ⟨l0, ls⟩
      · exact absurd heq (splitLines_ne_nil cs)
      · rw [heq] at h
        rcases List.mem_cons.mp h with h1 | h1
        · subst h1
          intro hmem
          rcases List.mem_cons.mp hmem with h2 | h2
          · exact hc h2.symm
          · exact ih (heq ▸ List.mem_cons_self l0 ls) h2
        · exact ih (heq ▸ List.mem_cons_of_mem l0 h1)

theorem joinLines_cons_cons (c : Char) (l : Str) (ls : List Str) :
    joinLines ((c :: l) :: ls) = c :: joinLines (l :: ls) := by
  cases ls with
  | nil => rfl
  | cons x xs => simp [joinLines]

theorem join_split (s : Str) : joinLines (splitLines s) = s := by
  induction s with
  | nil => rfl
  | cons c cs ih =>
    simp only [splitLines]
    by_cases hc : c = '\n'
    · rw [if_pos hc]
      rcases heq : splitLines cs with _ | ⟨l0, ls⟩
      · exact absurd heq (splitLines_ne_nil cs)
      · rw [heq] at ih
        simp [joinLines, hc, ih]
    · rw [if_neg hc]
      rcases heq : splitLines cs with _ | ⟨l0, ls⟩
      · exact absurd heq (splitLines_ne_nil cs)
      · rw [heq] at ih
        rw [joinLines_cons_cons, ih]

theorem splitLines_nlfree {a : Str} (h : '\n' ∉ a) : splitLines a = [a] := by
  induction a with
  | nil => rfl
  | cons c cs ih =>
    have hc : c ≠ '\n' := fun hh => h (hh ▸ List.mem_cons_self c cs)
    have hcs : '\n' ∉ cs := fun hh => h (List.mem_cons_of_mem c hh)
    simp only [splitLines, if_neg hc, ih hcs]

theorem splitLines_append_nl {a : Str} (b : Str) (h : '\n' ∉ a) :
    splitLines (a ++ '\n' :: b) = a :: splitLines b := by
  induction a with
  | nil => simp [splitLines]
  | cons c cs ih =>
    have hc : c ≠ '\n' := fun hh => h (hh ▸ List.mem_cons_self c cs)
    have hcs : '\n' ∉ cs := fun hh => h (List.mem_cons_of_mem c hh)
    simp only [List.cons_append, splitLines, if_neg hc]
    rw [show cs.append ('\n' :: b) = cs ++ '\n' :: b from rfl, ih hcs]

theorem split_join {L : List Str} (hne : L ≠ []) (h : ∀ l ∈ L, '\n' ∉ l) :
    splitLines (joinLines L) = L := by
  induction L with
  | nil => exact absurd rfl hne
  | cons l ls ih =>
    cases ls with
    | nil =>
      simp only [joinLines]
      exact splitLines_nlfree (h l (List.mem_cons_self l []))
    | cons l2 ls2 =>
      simp only [joinLines]
      rw [splitLines_append_nl _ (h l (List.mem_cons_self l _))]
      rw [ih (by simp) (fun x hx => h x (List.mem_cons_of_mem l hx))]

/-! ## Lemmas: association lists with Python-dict semantics -/

section Dict

variable {α : Type}

theorem keysOf_nil : keysOf ([] : List (Str × α)) = [] := rfl

theorem keysOf_cons (k : Str) (v : α) (rest : List (Str × α)) :
    keysOf ((k, v) :: rest) = k :: keysOf rest := rfl

theorem dictInsert_cons (k k1 : Str) (v v1 : α) (rest : List (Str × α)) :
    dictInsert k v ((k1, v1) :: rest) =
      if k1 = k then (k, v) :: rest else (k1, v1) :: dictInsert k v rest := rfl

theorem alookup_cons (k k1 : Str) (v1 : α) (rest : List (Str × α)) :
    alookup k ((k1, v1) :: rest) = if k1 = k then some v1 else alookup k rest := rfl

theorem dictInsert_of_not_mem {k : Str} {l : List (Str × α)} (v : α)
    (h : k ∉ keysOf l) : dictInsert k v l = l ++ [(k, v)] := by
  induction l with
  | nil => rfl
  | cons p rest ih =>
    obtain ⟨k1, v1⟩ := p
    rw [keysOf_cons] at h
    have hk : k1 ≠ k := fun hh => h (hh ▸ List.mem_cons_self k1 (keysOf rest))
    rw [dictInsert_cons, if_neg hk, List.cons_append,
      ih fun hh => h (List.mem_cons_of_mem k1 hh)]

theorem alookup_eq_none {k : Str} {l : List (Str × α)} :
    alookup k l = none ↔ k ∉ keysOf l := by
  induction l with
  | nil => simp [alookup, keysOf_nil]
  | cons p rest ih =>
    obtain ⟨k1, v1⟩ := p
    rw [alookup_cons, keysOf_cons]
    by_cases hk : k1 = k
    · subst hk
      simp
    · rw [if_neg hk, ih]
      simp [Ne.symm hk]

theorem mem_of_alookup_eq_some {k : Str} {v : α} {l : List (Str × α)}
    (h : alookup k l = some v) : (k, v) ∈ l := by
  induction l with
  | nil => simp [alookup] at h
  | cons p rest ih =>
    obtain ⟨k1, v1⟩ := p
    rw [alookup_cons] at h
    by_cases hk : k1 = k
    · rw [if_pos hk] at h
      obtain rfl : v1 = v := Option.some.inj h
      exact hk ▸ List.mem_cons_self _ _
    · rw [if_neg hk] at h
      exact List.mem_cons_of_mem _ (ih h)

theorem key_mem_of_alookup_eq_some {k : Str} {v : α} {l : List (Str × α)}
    (h : alookup k l = some v) : k ∈ keysOf l :=
  List.mem_map.mpr ⟨(k, v), mem_of_alookup_eq_some h, rfl⟩

theorem alookup_of_mem_nodup {k : Str} {v : α} {l : List (Str × α)}
    (hnd : (keysOf l).Nodup) (h : (k, v) ∈ l) : alookup k l = some v := by
  induction l with
  | nil => simp at h
  | cons p rest ih =>
    obtain ⟨k1, v1⟩ := p
    rw [keysOf_cons, List.nodup_cons] at hnd
    rw [alookup_cons]
    rcases List.mem_cons.mp h with h1 | h1
    · rw [Prod.mk.injEq] at h1
      rw [if_pos h1.1.symm, h1.2]
    · have hkmem : k ∈ keysOf rest := List.mem_map.mpr ⟨(k, v), h1, rfl⟩
      have hne : k1 ≠ k := fun hh => hnd.1 (hh ▸ hkmem)
      rw [if_neg hne]
      exact ih hnd.2 h1

theorem alookup_dictInsert_self (k : Str) (v : α) (l : List (Str × α)) :
    alookup k (dictInsert k v l) = some v := by
  induction l with
  | nil =>
    show alookup k [(k, v)] = some v
    rw [alookup_cons, if_pos rfl]
  | cons p rest ih =>
    obtain ⟨k1, v1⟩ := p
    rw [dictInsert_cons]
    by_cases hk : k1 = k
    · rw [if_pos hk, alookup_cons, if_pos rfl]
    · rw [if_neg hk, alookup_cons, if_neg hk]
      exact ih

theorem alookup_dictInsert_ne {m k : Str} (hne : k ≠ m) (v : α) (l : List (Str × α)) :
    alookup m (dictInsert k v l) = alookup m l := by
  induction l with
  | nil =>
    show alookup m [(k, v)] = none
    rw [alookup_cons, if_neg hne]
    rfl
  | cons p rest ih =>
    obtain ⟨k1, v1⟩ := p
    rw [dictInsert_cons]
    by_cases hk : k1 = k
    · subst hk
      rw [if_pos rfl, alookup_cons, alookup_cons, if_neg hne, if_neg hne]
    · rw [if_neg hk, alookup_cons, alookup_cons, ih]

theorem dictInsert_self {k : Str} {v : α} {l : List (Str × α)}
    (h : alookup k l = some v) : dictInsert k v l = l := by
  induction l with
  | nil => simp [alookup] at h
  | cons p rest ih =>
    obtain ⟨k1, v1⟩ := p
    rw [alookup_cons] at h
    rw [dictInsert_cons]
    by_cases hk : k1 = k
    · rw [if_pos hk] at h ⊢
      obtain rfl : v1 = v := Option.some.inj h
      rw [hk]
    · rw [if_neg hk] at h ⊢
      rw [ih h]

theorem keysOf_dictInsert_mem {k : Str} {l : List (Str × α)} (v : α)
    (h : k ∈ keysOf l) : keysOf (dictInsert k v l) = keysOf l := by
  induction l with
  | nil => simp [keysOf_nil] at h
  | cons p rest ih =>
    obtain ⟨k1, v1⟩ := p
    rw [dictInsert_cons]
    by_cases hk : k1 = k
    · rw [if_pos hk, keysOf_cons, keysOf_cons, hk]
    · have hm : k ∈ keysOf rest := by
        rw [keysOf_cons] at h
        rcases List.mem_cons.mp h with h1 | h1
        · exact absurd h1.symm hk
        · exact h1
      rw [if_neg hk, keysOf_cons, keysOf_cons, ih hm]

theorem keysOf_dictInsert_nodup {l : List (Str × α)} (k : Str) (v : α)
    (h : (keysOf l).Nodup) : (keysOf (dictInsert k v l)).Nodup := by
  by_cases hm : k ∈ keysOf l
  · rw [keysOf_dictInsert_mem v hm]
    exact h
  · rw [dictInsert_of_not_mem v hm]
    have : keysOf (l ++ [(k, v)]) = keysOf l ++ [k] := by
      simp [keysOf]
    rw [this]
    exact List.Nodup.append h (List.nodup_singleton k)
      (List.disjoint_singleton.mpr hm)

theorem alookup_map_value {β : Type} (k : Str) (g : α → β) (l : List (Str × α)) :
    alookup k (l.map fun p => (p.1, g p.2)) = (alookup k l).map g := by
  induction l with
  | nil => rfl
  | cons p rest ih =>
    obtain ⟨k1, v1⟩ := p
    show alookup k ((k1, g v1) :: _) = _
    rw [alookup_cons, alookup_cons]
    by_cases hk : k1 = k
    · rw [if_pos hk, if_pos hk]
      rfl
    · rw [if_neg hk, if_neg hk, ih]

end Dict

/-! ## Lemmas: headers and well-formed names -/

theorem h2hdr_inj {m n : Str} : h2hdr m = h2hdr n ↔ m = n := by
  simp [h2hdr]

theorem h2hdr_drop3 (n : Str) : (h2hdr n).drop 3 = n := rfl

theorem startsH2_h2hdr (n : Str) : startsH2 (h2hdr n) = true := by
  simp [startsH2, h2hdr, hasPre]

theorem wfName_ne_nil {n : Str} (h : wfName n = true) : n ≠ [] := by
  intro hh
  subst hh
  simp [wfName] at h

theorem isSectionStart_h2hdr {n : Str} (h : wfName n = true) :
    isSectionStart (h2hdr n) = true := by
  cases n with
  | nil => exact absurd rfl (wfName_ne_nil h)
  | cons c rest =>
    simp only [wfName, Bool.and_eq_true] at h
    simp [isSectionStart, h2hdr, h.1.1]

theorem pystrip_of_wfName {n : Str} (h : wfName n = true) : pystrip n = n := by
  simp only [wfName, Bool.and_eq_true, beq_iff_eq] at h
  exact h.1.2

theorem nl_not_mem_of_wfName {n : Str} (h : wfName n = true) : '\n' ∉ n := by
  simp only [wfName, Bool.and_eq_true, Bool.not_eq_true'] at h
  intro hmem
  have := h.2
  rw [show (n.contains '\n') = true from by simp [List.contains, List.elem_iff, hmem]] at this
  exact Bool.false_ne_true this.symm

theorem nl_not_mem_h2hdr {n : Str} (h : '\n' ∉ n) : '\n' ∉ h2hdr n := by
  intro hmem
  simp only [h2hdr, List.mem_cons] at hmem
  rcases hmem with h1 | h1 | h1 | h1 <;> first | exact absurd h1 (by decide) | exact h h1

theorem isSectionStart_imp_startsH2 {l : Str} (h : isSectionStart l = true) :
    startsH2 l = true := by
  rcases l with _ | ⟨a, _ | ⟨b, _ | ⟨sp, _ | ⟨c, rest⟩⟩⟩⟩ <;>
    simp [isSectionStart] at h
  obtain ⟨⟨⟨ha, hb⟩, hsp⟩, _⟩ := h
  simp [startsH2, hasPre, ha, hb, hsp]

theorem contentLineOk_nl {l : Str} (h : contentLineOk l = true) : '\n' ∉ l := by
  simp only [contentLineOk, Bool.and_eq_true] at h
  exact nlFree_iff.mp h.1

theorem contentLineOk_nostart {l : Str} (h : contentLineOk l = true) :
    isSectionStart l = false := by
  simp only [contentLineOk, Bool.and_eq_true, Bool.not_eq_true'] at h
  exact h.2

theorem lineOk_nl {l : Str} (h : lineOk l = true) : '\n' ∉ l := by
  simp only [lineOk, Bool.and_eq_true] at h
  exact nlFree_iff.mp h.1.1

theorem lineOk_noH2 {l : Str} (h : lineOk l = true) : startsH2 l = false := by
  simp only [lineOk, Bool.and_eq_true, Bool.not_eq_true'] at h
  exact h.1.2

theorem lineOk_noH1 {l : Str} (h : lineOk l = true) : startsH1 l = false := by
  simp only [lineOk, Bool.and_eq_true, Bool.not_eq_true'] at h
  exact h.2

theorem contentLineOk_of_lineOk {l : Str} (h : lineOk l = true) :
    contentLineOk l = true := by
  simp only [lineOk, Bool.and_eq_true] at h
  simp only [contentLineOk, Bool.and_eq_true, Bool.not_eq_true']
  refine ⟨h.1.1, ?_⟩
  rcases hs : isSectionStart l with _ | _
  · rfl
  · rw [isSectionStart_imp_startsH2 hs] at h
    exact absurd h.1.2 (by simp)

theorem lineOk_ne_h2hdr {l n : Str} (h : lineOk l = true) : l ≠ h2hdr n := by
  intro hh
  have h2 := lineOk_noH2 h
  rw [hh, startsH2_h2hdr n] at h2
  exact absurd h2 (by decide)

/-! ## Lemmas: the parser -/

theorem parseLoop_nil_none (acc : List Str) (secs : List (Str × Str)) :
    parseLoop [] none acc secs = secs := rfl

theorem parseLoop_nil_some (n : Str) (acc : List Str) (secs : List (Str × Str)) :
    parseLoop [] (some n) acc secs = dictInsert n (joinLines acc) secs := rfl

theorem parseLoop_start_none {l : Str} (h : isSectionStart l = true)
    (ls : List Str) (acc : List Str) (secs : List (Str × Str)) :
    parseLoop (l :: ls) none acc secs =
      parseLoop ls (some (pystrip (l.drop 3))) [] secs := by
  simp [parseLoop, h]

theorem parseLoop_start_some {l : Str} (h : isSectionStart l = true)
    (ls : List Str) (n : Str) (acc : List Str) (secs : List (Str × Str)) :
    parseLoop (l :: ls) (some n) acc secs =
      parseLoop ls (some (pystrip (l.drop 3))) [] (dictInsert n (joinLines acc) secs) := by
  simp [parseLoop, h]

theorem parseLoop_nonstart_none {l : Str} (h : isSectionStart l = false)
    (ls : List Str) (acc : List Str) (secs : List (Str × Str)) :
    parseLoop (l :: ls) none acc secs = parseLoop ls none acc secs := by
  simp [parseLoop, h]

theorem parseLoop_nonstart_some {l : Str} (h : isSectionStart l = false)
    (ls : List Str) (n : Str) (acc : List Str) (secs : List (Str × Str)) :
    parseLoop (l :: ls) (some n) acc secs = parseLoop ls (some n) (acc ++ [l]) secs := by
  simp [parseLoop, h]

theorem parseLoop_skip_pre {pre : List Str} (h : ∀ l ∈ pre, isSectionStart l = false)
    (rest : List Str) (acc : List Str) (secs : List (Str × Str)) :
    parseLoop (pre ++ rest) none acc secs = parseLoop rest none acc secs := by
  induction pre with
  | nil => rfl
  | cons l pre1 ih =>
    rw [List.cons_append, parseLoop_nonstart_none (h l (List.mem_cons_self l pre1))]
    exact ih fun x hx => h x (List.mem_cons_of_mem l hx)

theorem parseLoop_content {c : List Str} (h : ∀ l ∈ c, isSectionStart l = false)
    (rest : List Str) (n : Str) (acc : List Str) (secs : List (Str × Str)) :
    parseLoop (c ++ rest) (some n) acc secs = parseLoop rest (some n) (acc ++ c) secs := by
  induction c generalizing acc with
  | nil => simp
  | cons l c1 ih =>
    rw [List.cons_append, parseLoop_nonstart_some (h l (List.mem_cons_self l c1)),
      ih (fun x hx => h x (List.mem_cons_of_mem l hx))]
    simp

theorem keysOf_append {α : Type} (a b : List (Str × α)) :
    keysOf (a ++ b) = keysOf a ++ keysOf b := List.map_append _ a b

theorem flatBlocks_nil : flatBlocks [] = [] := rfl

theorem flatBlocks_cons (n : Str) (c : List Str) (bs : List (Str × List Str)) :
    flatBlocks ((n, c) :: bs) = h2hdr n :: (c ++ flatBlocks bs) := by
  simp [flatBlocks]

theorem mem_flatBlocks {l : Str} {bs : List (Str × List Str)} :
    l ∈ flatBlocks bs ↔ ∃ p ∈ bs, l = h2hdr p.1 ∨ l ∈ p.2 := by
  simp [flatBlocks, List.mem_flatMap, List.mem_cons]

theorem parseLoop_flat {bs : List (Str × List Str)} :
    ∀ (n : Str) (acc : List Str) (secs : List (Str × Str)),
    (∀ p ∈ bs, wfName p.1 = true ∧ ∀ l ∈ p.2, contentLineOk l = true) →
    (keysOf bs).Nodup →
    n ∉ keysOf secs →
    (∀ m ∈ keysOf bs, m ∉ keysOf secs ∧ m ≠ n) →
    parseLoop (flatBlocks bs) (some n) acc secs =
      secs ++ (n, joinLines acc) :: bs.map (fun p => (p.1, joinLines p.2)) := by
  induction bs with
  | nil =>
    intro n acc secs _ _ hn _
    rw [flatBlocks_nil, parseLoop_nil_some, dictInsert_of_not_mem _ hn]
    rfl
  | cons p bs1 ih =>
    intro n acc secs hwf hnd hn hm
    obtain ⟨m, c⟩ := p
    have hwfm : wfName m = true := (hwf (m, c) (List.mem_cons_self _ _)).1
    have hcok : ∀ l ∈ c, contentLineOk l = true := (hwf (m, c) (List.mem_cons_self _ _)).2
    rw [flatBlocks_cons, parseLoop_start_some (isSectionStart_h2hdr hwfm),
      h2hdr_drop3, pystrip_of_wfName hwfm,
      dictInsert_of_not_mem _ hn,
      parseLoop_content (fun l hl => contentLineOk_nostart (hcok l hl))]
    have hmkeys : m ∈ keysOf ((m, c) :: bs1) := List.mem_cons_self m _
    have hndtail : (keysOf bs1).Nodup := by
      rw [keysOf_cons, List.nodup_cons] at hnd
      exact hnd.2
    have hmn : m ∉ keysOf bs1 := by
      rw [keysOf_cons, List.nodup_cons] at hnd
      exact hnd.1
    rw [ih m ([] ++ c) (secs ++ [(n, joinLines acc)])
      (fun q hq => hwf q (List.mem_cons_of_mem _ hq)) hndtail
      (by
        rw [keysOf_append]
        simp only [List.mem_append, keysOf_cons, keysOf_nil, List.mem_singleton]
        rintro (h1 | h1)
        · exact (hm m hmkeys).1 h1
        · exact (hm m hmkeys).2 h1)
      (fun k hk => by
        have hk2 : k ∈ keysOf ((m, c) :: bs1) := by
          rw [keysOf_cons]
          exact List.mem_cons_of_mem m hk
        constructor
        · rw [keysOf_append]
          simp only [List.mem_append, keysOf_cons, keysOf_nil, List.mem_singleton]
          rintro (h1 | h1)
          · exact (hm k hk2).1 h1
          · exact (hm k hk2).2 h1
        · intro hh
          exact hmn (hh ▸ hk))]
    simp

theorem keysOf_parseLoop_nodup :
    ∀ (ls : List Str) (cur : Option Str) (acc : List Str) (secs : List (Str × Str)),
    (keysOf secs).Nodup → (keysOf (parseLoop ls cur acc secs)).Nodup := by
  intro ls
  induction ls with
  | nil =>
    intro cur acc secs h
    cases cur with
    | none => exact h
    | some n => exact keysOf_dictInsert_nodup _ _ h
  | cons l ls1 ih =>
    intro cur acc secs h
    rcases hs : isSectionStart l with _ | _
    · cases cur with
      | none => rw [parseLoop_nonstart_none hs]; exact ih _ _ _ h
      | some n => rw [parseLoop_nonstart_some hs]; exact ih _ _ _ h
    · cases cur with
      | none => rw [parseLoop_start_none hs]; exact ih _ _ _ h
      | some n =>
        rw [parseLoop_start_some hs]
        exact ih _ _ _ (keysOf_dictInsert_nodup _ _ h)

theorem keysOf_parseDoc_nodup (s : Str) : (keysOf (parseDoc s)).Nodup :=
  keysOf_parseLoop_nodup _ none [] [] List.nodup_nil

/-! ## Lemmas: the replacer -/

theorem skipTo_nil : skipTo [] = [] := rfl

theorem skipTo_boundary_cons {l : Str} (ls : List Str)
    (h : (startsH2 l || startsH1 l) = true) : skipTo (l :: ls) = l :: ls := by
  rw [skipTo, List.dropWhile_cons, if_neg (by rw [h]; simp)]

theorem skipTo_drop_cons {l : Str} (ls : List Str)
    (h : (startsH2 l || startsH1 l) = false) : skipTo (l :: ls) = skipTo ls := by
  rw [skipTo, List.dropWhile_cons, if_pos (by rw [h]; rfl), skipTo]

theorem skipTo_all_drop {c : List Str}
    (h : ∀ l ∈ c, (startsH2 l || startsH1 l) = false) (rest : List Str) :
    skipTo (c ++ rest) = skipTo rest := by
  induction c with
  | nil => rfl
  | cons l c1 ih =>
    rw [List.cons_append, skipTo_drop_cons _ (h l (List.mem_cons_self l c1))]
    exact ih fun x hx => h x (List.mem_cons_of_mem l hx)

theorem replAux_nil (hd : Str) (tls : List Str) (sk : Bool) :
    replAux hd tls sk [] = [] := rfl

theorem replAux_false_cons (hd : Str) (tls : List Str) (l : Str) (ls : List Str) :
    replAux hd tls false (l :: ls) =
      if l = hd then hd :: (tls ++ replAux hd tls true ls)
      else l :: replAux hd tls false ls := by
  simp [replAux]

theorem replAux_true_drop {l : Str} (hd : Str) (tls : List Str) (ls : List Str)
    (h : (startsH2 l || startsH1 l) = false) :
    replAux hd tls true (l :: ls) = replAux hd tls true ls := by
  simp [replAux, h]

theorem replAux_true_boundary {l : Str} (hd : Str) (tls : List Str) (ls : List Str)
    (h : (startsH2 l || startsH1 l) = true) :
    replAux hd tls true (l :: ls) =
      if l = hd then hd :: (tls ++ replAux hd tls true ls)
      else l :: replAux hd tls false ls := by
  simp [replAux, h]

theorem replAux_true_eq_skipTo (hd : Str) (tls : List Str) (ls : List Str) :
    replAux hd tls true ls = replAux hd tls false (skipTo ls) := by
  induction ls with
  | nil => rfl
  | cons l ls1 ih =>
    rcases hb : (startsH2 l || startsH1 l) with _ | _
    · rw [replAux_true_drop hd tls ls1 hb, skipTo_drop_cons ls1 hb, ih]
    · rw [replAux_true_boundary hd tls ls1 hb, skipTo_boundary_cons ls1 hb,
        replAux_false_cons]

theorem replAux_no_hd {hd : Str} {pre : List Str} (tls : List Str)
    (h : ∀ l ∈ pre, l ≠ hd) (rest : List Str) :
    replAux hd tls false (pre ++ rest) = pre ++ replAux hd tls false rest := by
  induction pre with
  | nil => rfl
  | cons l pre1 ih =>
    rw [List.cons_append, replAux_false_cons,
      if_neg (h l (List.mem_cons_self l pre1)), List.cons_append,
      ih fun x hx => h x (List.mem_cons_of_mem l hx)]

theorem ne_h2hdr_of_noH2 {l : Str} (X : Str) (h : startsH2 l = false) :
    l ≠ h2hdr X := by
  intro hh
  rw [hh, startsH2_h2hdr X] at h
  exact absurd h (by decide)

theorem flatBlocks_eq_nil {bs : List (Str × List Str)} (h : flatBlocks bs = []) :
    bs = [] := by
  cases bs with
  | nil => rfl
  | cons p bs1 =>
    obtain ⟨m, c⟩ := p
    rw [flatBlocks_cons] at h
    exact absurd h (List.cons_ne_nil _ _)

theorem replAux_flat {X : Str} {tls : List Str} :
    ∀ {bs : List (Str × List Str)},
    (∀ p ∈ bs, p.2 ≠ [] ∧ ∀ l ∈ p.2, lineOk l = true) →
    replAux (h2hdr X) tls false (flatBlocks bs) =
      flatBlocks (bs.map fun p => if p.1 = X then (p.1, tls) else p) := by
  intro bs
  induction bs with
  | nil => intro _; rfl
  | cons p bs1 ih =>
    intro hwf
    obtain ⟨m, c⟩ := p
    have hcok : ∀ l ∈ c, lineOk l = true := (hwf (m, c) (List.mem_cons_self _ _)).2
    have ihr := ih fun q hq => hwf q (List.mem_cons_of_mem _ hq)
    rw [flatBlocks_cons, replAux_false_cons]
    by_cases hmX : m = X
    · subst hmX
      rw [if_pos rfl, replAux_true_eq_skipTo,
        skipTo_all_drop (fun l hl => by
          rw [lineOk_noH2 (hcok l hl), lineOk_noH1 (hcok l hl)]
          rfl)]
      have htail : replAux (h2hdr m) tls false (skipTo (flatBlocks bs1)) =
          flatBlocks (bs1.map fun p => if p.1 = m then (p.1, tls) else p) := by
        cases hb1 : bs1 with
        | nil => rfl
        | cons q bs2 =>
          obtain ⟨m2, c2⟩ := q
          rw [flatBlocks_cons, skipTo_boundary_cons _ (by
            rw [startsH2_h2hdr m2]
            rfl), ← flatBlocks_cons]
          rw [hb1] at ihr
          exact ihr
      rw [htail, List.map_cons, if_pos rfl, flatBlocks_cons]
    · rw [if_neg (by
        intro hh
        exact hmX (h2hdr_inj.mp hh)),
        replAux_no_hd tls (fun l hl => lineOk_ne_h2hdr (hcok l hl)), ihr,
        List.map_cons, if_neg hmX, flatBlocks_cons]

theorem replace_render {d : MdDoc} (X T : Str) (h : WfDoc d) :
    replace_section_in_file (some (renderDoc d)) X T =
      some (renderDoc { d with
        blocks := d.blocks.map fun p =>
          if p.1 = X then (p.1, splitLines T) else p }) := by
  obtain ⟨hpre, hblocks, hnd⟩ := h
  by_cases hre : renderLines d = []
  · have hpre0 : d.preamble = [] := (List.append_eq_nil.mp hre).1
    have hb0 : d.blocks = [] := flatBlocks_eq_nil (List.append_eq_nil.mp hre).2
    rw [renderDoc, hre]
    show some (joinLines (replAux (h2hdr X) (splitLines T) false (splitLines []))) = _
    rw [show splitLines ([] : Str) = [[]] from rfl, replAux_false_cons,
      if_neg (by simp [h2hdr]), replAux_nil]
    rw [renderDoc, renderLines, hpre0, hb0]
    rfl
  · have hnl : ∀ l ∈ renderLines d, '\n' ∉ l := by
      intro l hl
      rcases List.mem_append.mp hl with h1 | h1
      · exact nlFree_iff.mp (hpre l h1).1
      · rcases mem_flatBlocks.mp h1 with ⟨p, hp, h2 | h2⟩
        · exact h2 ▸ nl_not_mem_h2hdr (nl_not_mem_of_wfName (hblocks p hp).1)
        · exact lineOk_nl ((hblocks p hp).2.2 l h2)
    show some (joinLines (replAux (h2hdr X) (splitLines T) false
      (splitLines (joinLines (renderLines d))))) = _
    rw [split_join hre hnl]
    show some (joinLines (replAux (h2hdr X) (splitLines T) false
      (d.preamble ++ flatBlocks d.blocks))) = _
    rw [replAux_no_hd _ (fun l hl => ne_h2hdr_of_noH2 X (hpre l hl).2),
      replAux_flat (fun p hp => (hblocks p hp).2)]
    rfl

/-! ## Lemmas: refreshing a list of sections on a rendered document -/

theorem mapBlocks_nil (d : MdDoc) : mapBlocks d [] = d := by
  show MdDoc.mk d.preamble _ = d
  have h1 : (d.blocks.map fun p =>
      (p.1, match alookup p.1 ([] : List (Str × Str)) with
            | some t => splitLines t
            | none => p.2)) = d.blocks := by
    rw [show (fun (p : Str × List Str) =>
        (p.1, match alookup p.1 ([] : List (Str × Str)) with
              | some t => splitLines t
              | none => p.2)) = fun p => p from rfl, List.map_id']
  rw [h1]

theorem mapBlocks_single (d : MdDoc) (n T : Str) :
    mapBlocks d [(n, T)] =
      { d with blocks := d.blocks.map fun p =>
          if p.1 = n then (p.1, splitLines T) else p } := by
  show MdDoc.mk d.preamble _ = MdDoc.mk d.preamble _
  congr 1
  apply List.map_congr_left
  intro p _
  by_cases hp : p.1 = n
  · have h1 : alookup p.1 [(n, T)] = some T := by
      rw [alookup_cons, if_pos hp.symm]
    simp only [h1, if_pos hp]
  · have h1 : alookup p.1 [(n, T)] = none := by
      rw [alookup_cons, if_neg fun hh => hp hh.symm]
      rfl
    simp only [h1, if_neg hp]

theorem mapBlocks_step (d : MdDoc) (n T : Str) {lst1 : List (Str × Str)}
    (hn : n ∉ keysOf lst1) :
    mapBlocks { d with blocks := d.blocks.map fun p =>
        if p.1 = n then (p.1, splitLines T) else p } lst1 =
      mapBlocks d ((n, T) :: lst1) := by
  show MdDoc.mk d.preamble _ = MdDoc.mk d.preamble _
  congr 1
  rw [List.map_map]
  apply List.map_congr_left
  intro p _
  simp only [Function.comp_apply]
  by_cases hp : p.1 = n
  · have h1 : alookup p.1 lst1 = none := alookup_eq_none.mpr (hp ▸ hn)
    have h2 : alookup p.1 ((n, T) :: lst1) = some T := by
      rw [alookup_cons, if_pos hp.symm]
    simp only [if_pos hp, h1, h2]
  · have h2 : alookup p.1 ((n, T) :: lst1) = alookup p.1 lst1 := by
      rw [alookup_cons, if_neg fun hh => hp hh.symm]
    simp only [if_neg hp, h2]

theorem keysOf_map_if (bs : List (Str × List Str)) (n T : Str) :
    keysOf (bs.map fun p => if p.1 = n then (p.1, splitLines T) else p) = keysOf bs := by
  show List.map _ _ = List.map _ _
  rw [List.map_map]
  apply List.map_congr_left
  intro p _
  by_cases hp : p.1 = n <;> simp [hp]

theorem wfDoc_map_one {d : MdDoc} {n T : Str} (h : WfDoc d)
    (hT : ∀ l ∈ splitLines T, startsH2 l = false ∧ startsH1 l = false) :
    WfDoc { d with blocks := d.blocks.map fun p =>
      if p.1 = n then (p.1, splitLines T) else p } := by
  obtain ⟨hpre, hblocks, hnd⟩ := h
  refine ⟨hpre, ?_, ?_⟩
  · intro q hq
    rcases List.mem_map.mp hq with ⟨p, hp, hfq⟩
    by_cases hpn : p.1 = n
    · rw [← hfq, if_pos hpn]
      refine ⟨(hblocks p hp).1, splitLines_ne_nil T, ?_⟩
      intro l hl
      have hnl : nlFree l = true := nlFree_iff.mpr (mem_splitLines_nl hl)
      have hT2 := hT l hl
      simp [lineOk, hnl, hT2.1, hT2.2]
    · rw [← hfq, if_neg hpn]
      exact hblocks p hp
  · show (keysOf _).Nodup
    rw [keysOf_map_if]
    exact hnd

theorem update_meta_valid (secs : List (Str × Str)) (name newHash : Str) :
    update_metadata_hash (.valid (some secs)) name newHash =
      .valid (some (dictInsert name newHash secs)) := rfl

theorem foldRecs_nil (recs : List (Str × Str)) : foldRecs recs [] = recs := rfl

theorem foldRecs_cons (recs : List (Str × Str)) (n T : Str) (lst : List (Str × Str)) :
    foldRecs recs ((n, T) :: lst) =
      foldRecs (dictInsert n (compute_section_hash T) recs) lst := rfl

theorem alookup_foldRecs {lst : List (Str × Str)} :
    ∀ (recs : List (Str × Str)) (m : Str), (keysOf lst).Nodup →
    alookup m (foldRecs recs lst) =
      match alookup m lst with
      | some T => some (compute_section_hash T)
      | none => alookup m recs := by
  induction lst with
  | nil => intro recs m _; rfl
  | cons q lst1 ih =>
    intro recs m hnd
    obtain ⟨n, T⟩ := q
    rw [keysOf_cons, List.nodup_cons] at hnd
    rw [foldRecs_cons, ih _ _ hnd.2, alookup_cons]
    by_cases hm : n = m
    · subst hm
      have h1 : alookup n lst1 = none := alookup_eq_none.mpr hnd.1
      rw [h1, if_pos rfl, alookup_dictInsert_self]
    · rw [if_neg hm]
      cases h1 : alookup m lst1 with
      | some T1 => rfl
      | none =>
        show alookup m (dictInsert n _ recs) = alookup m recs
        exact alookup_dictInsert_ne hm _ recs

theorem foldRecs_id {lst recs : List (Str × Str)}
    (h : ∀ p ∈ lst, alookup p.1 recs = some (compute_section_hash p.2)) :
    foldRecs recs lst = recs := by
  induction lst with
  | nil => rfl
  | cons q lst1 ih =>
    obtain ⟨n, T⟩ := q
    rw [foldRecs_cons, dictInsert_self (h (n, T) (List.mem_cons_self _ _)),
      ih fun p hp => h p (List.mem_cons_of_mem _ hp)]

theorem applyWet_nil (st : SyncState) : applyWet st [] = st := rfl

theorem applyWet_cons (tgt : Option Str) (mf : MetaFile) (tm : Option Str)
    (n T : Str) (lst : List (Str × Str)) :
    applyWet ⟨tgt, mf, tm⟩ ((n, T) :: lst) =
      applyWet ⟨replace_section_in_file tgt n T,
        update_metadata_hash mf n (compute_section_hash T), tm⟩ lst := rfl

theorem applyWet_render :
    ∀ (lst : List (Str × Str)) (d : MdDoc) (recs : List (Str × Str)) (tm : Option Str),
    WfDoc d →
    (∀ p ∈ lst, ∀ l ∈ splitLines p.2, startsH2 l = false ∧ startsH1 l = false) →
    (keysOf lst).Nodup →
    applyWet ⟨some (renderDoc d), .valid (some recs), tm⟩ lst =
      ⟨some (renderDoc (mapBlocks d lst)), .valid (some (foldRecs recs lst)), tm⟩ := by
  intro lst
  induction lst with
  | nil =>
    intro d recs tm _ _ _
    rw [applyWet_nil, mapBlocks_nil, foldRecs_nil]
  | cons q lst1 ih =>
    intro d recs tm hwf hT hnd
    obtain ⟨n, T⟩ := q
    rw [keysOf_cons, List.nodup_cons] at hnd
    rw [applyWet_cons, replace_render n T hwf, update_meta_valid]
    rw [ih _ _ _ (wfDoc_map_one hwf (hT (n, T) (List.mem_cons_self _ _)))
      (fun p hp => hT p (List.mem_cons_of_mem _ hp)) hnd.2]
    rw [mapBlocks_step d n T hnd.1, ← foldRecs_cons]

/-! ## Lemmas: the update loop -/

theorem updateLoop_nil (origSecs curSecs : List (Str × Str)) (dry : Bool)
    (st : SyncState) (u s : Nat) (names : List Str) :
    updateLoop origSecs curSecs dry [] st u s names = (st, u, s, names) := rfl

theorem secMatches_eq_true {origSecs curSecs : List (Str × Str)} {name tcont oh : Str}
    (ho : alookup name origSecs = some oh)
    (hh : compute_section_hash ((alookup name curSecs).getD []) = oh) :
    secMatches origSecs curSecs (name, tcont) = true := by
  simp only [secMatches, ho, beq_iff_eq]
  exact hh

theorem secMatches_eq_false_none {origSecs curSecs : List (Str × Str)} {name tcont : Str}
    (ho : alookup name origSecs = none) :
    secMatches origSecs curSecs (name, tcont) = false := by
  simp only [secMatches, ho]

theorem secMatches_eq_false_ne {origSecs curSecs : List (Str × Str)} {name tcont oh : Str}
    (ho : alookup name origSecs = some oh)
    (hh : compute_section_hash ((alookup name curSecs).getD []) ≠ oh) :
    secMatches origSecs curSecs (name, tcont) = false := by
  simp only [secMatches, ho, beq_eq_false_iff_ne, ne_eq]
  exact hh

theorem secSkipped_iff {origSecs curSecs : List (Str × Str)} {name tcont : Str} :
    secSkipped origSecs curSecs (name, tcont) =
      match alookup name origSecs with
      | none => false
      | some oh => !(compute_section_hash ((alookup name curSecs).getD []) == oh) := rfl

theorem updateLoop_cons (origSecs curSecs : List (Str × Str)) (dry : Bool)
    (name tcont : Str) (rest : List (Str × Str)) (st : SyncState) (u s : Nat)
    (names : List Str) :
    updateLoop origSecs curSecs dry ((name, tcont) :: rest) st u s names =
      match alookup name origSecs with
      | none => updateLoop origSecs curSecs dry rest st u s names
      | some origHash =>
        if compute_section_hash ((alookup name curSecs).getD []) = origHash then
          if dry then updateLoop origSecs curSecs dry rest st (u + 1) s names
          else
            updateLoop origSecs curSecs dry rest
              { st with
                target := replace_section_in_file st.target name tcont,
                meta := update_metadata_hash st.meta name (compute_section_hash tcont) }
              (u + 1) s names
        else updateLoop origSecs curSecs dry rest st u (s + 1) (names ++ [name]) := rfl

theorem refreshedOf_cons (origSecs curSecs : List (Str × Str)) (q : Str × Str)
    (rest : List (Str × Str)) :
    refreshedOf origSecs curSecs (q :: rest) =
      if secMatches origSecs curSecs q = true then
        q :: refreshedOf origSecs curSecs rest
      else refreshedOf origSecs curSecs rest := by
  simp only [refreshedOf, List.filter_cons]

theorem skippedOf_cons (origSecs curSecs : List (Str × Str)) (q : Str × Str)
    (rest : List (Str × Str)) :
    skippedOf origSecs curSecs (q :: rest) =
      if secSkipped origSecs curSecs q = true then
        q.1 :: skippedOf origSecs curSecs rest
      else skippedOf origSecs curSecs rest := by
  simp only [skippedOf, List.filter_cons]
  split <;> rfl

theorem secSkipped_none {origSecs curSecs : List (Str × Str)} {name : Str}
    (tcont : Str) (ho : alookup name origSecs = none) :
    secSkipped origSecs curSecs (name, tcont) = false := by
  simp only [secSkipped, ho]

theorem secSkipped_match {origSecs curSecs : List (Str × Str)} {name oh : Str}
    (tcont : Str) (ho : alookup name origSecs = some oh)
    (hh : compute_section_hash ((alookup name curSecs).getD []) = oh) :
    secSkipped origSecs curSecs (name, tcont) = false := by
  simp only [secSkipped, ho, hh, beq_self_eq_true, Bool.not_true]

theorem secSkipped_mismatch {origSecs curSecs : List (Str × Str)} {name oh : Str}
    (tcont : Str) (ho : alookup name origSecs = some oh)
    (hh : compute_section_hash ((alookup name curSecs).getD []) ≠ oh) :
    secSkipped origSecs curSecs (name, tcont) = true := by
  simp only [secSkipped, ho]
  rw [show (compute_section_hash ((alookup name curSecs).getD []) == oh) = false from
    beq_eq_false_iff_ne.mpr hh]
  rfl

theorem updateLoop_cons_new {origSecs : List (Str × Str)} {name : Str}
    (curSecs : List (Str × Str)) (dry : Bool) (tcont : Str)
    (rest : List (Str × Str)) (st : SyncState) (u s : Nat) (names : List Str)
    (ho : alookup name origSecs = none) :
    updateLoop origSecs curSecs dry ((name, tcont) :: rest) st u s names =
      updateLoop origSecs curSecs dry rest st u s names := by
  simp only [updateLoop, ho]

theorem updateLoop_cons_skip {origSecs curSecs : List (Str × Str)} {name oh : Str}
    (dry : Bool) (tcont : Str) (rest : List (Str × Str)) (st : SyncState)
    (u s : Nat) (names : List Str) (ho : alookup name origSecs = some oh)
    (hh : compute_section_hash ((alookup name curSecs).getD []) ≠ oh) :
    updateLoop origSecs curSecs dry ((name, tcont) :: rest) st u s names =
      updateLoop origSecs curSecs dry rest st u (s + 1) (names ++ [name]) := by
  simp only [updateLoop, ho, if_neg hh]

theorem updateLoop_cons_dry {origSecs curSecs : List (Str × Str)} {name oh : Str}
    (tcont : Str) (rest : List (Str × Str)) (st : SyncState)
    (u s : Nat) (names : List Str) (ho : alookup name origSecs = some oh)
    (hh : compute_section_hash ((alookup name curSecs).getD []) = oh) :
    updateLoop origSecs curSecs true ((name, tcont) :: rest) st u s names =
      updateLoop origSecs curSecs true rest st (u + 1) s names := by
  simp only [updateLoop, ho, if_pos hh, eq_self_iff_true, if_true]

theorem updateLoop_cons_wet {origSecs curSecs : List (Str × Str)} {name oh : Str}
    (tcont : Str) (rest : List (Str × Str)) (st : SyncState)
    (u s : Nat) (names : List Str) (ho : alookup name origSecs = some oh)
    (hh : compute_section_hash ((alookup name curSecs).getD []) = oh) :
    updateLoop origSecs curSecs false ((name, tcont) :: rest) st u s names =
      updateLoop origSecs curSecs false rest
        { st with
          target := replace_section_in_file st.target name tcont,
          meta := update_metadata_hash st.meta name (compute_section_hash tcont) }
        (u + 1) s names := by
  simp only [updateLoop, ho, if_pos hh, Bool.false_eq_true, if_false]

theorem updateLoop_spec (origSecs curSecs : List (Str × Str)) (dry : Bool) :
    ∀ (tplSecs : List (Str × Str)) (st : SyncState) (u s : Nat) (names : List Str),
    updateLoop origSecs curSecs dry tplSecs st u s names =
      ((if dry then st else applyWet st (refreshedOf origSecs curSecs tplSecs)),
       u + (refreshedOf origSecs curSecs tplSecs).length,
       s + (skippedOf origSecs curSecs tplSecs).length,
       names ++ skippedOf origSecs curSecs tplSecs) := by
  intro tplSecs
  induction tplSecs with
  | nil =>
    intro st u s names
    rw [updateLoop_nil]
    cases dry <;> simp [refreshedOf, skippedOf, applyWet_nil]
  | cons q rest ih =>
    intro st u s names
    obtain ⟨name, tcont⟩ := q
    rw [refreshedOf_cons, skippedOf_cons]
    cases ho : alookup name origSecs with
    | none =>
      rw [secMatches_eq_false_none ho, secSkipped_none tcont ho]
      simp only [Bool.false_eq_true, if_false]
      rw [updateLoop_cons_new curSecs dry tcont rest st u s names ho,
        ih st u s names]
    | some oh =>
      by_cases hh : compute_section_hash ((alookup name curSecs).getD []) = oh
      · rw [secMatches_eq_true ho hh, secSkipped_match tcont ho hh]
        simp only [Bool.false_eq_true, if_false, eq_self_iff_true, if_true]
        cases dry with
        | true =>
          rw [updateLoop_cons_dry tcont rest st u s names ho hh,
            ih st (u + 1) s names]
          simp only [eq_self_iff_true, if_true, List.length_cons, Prod.mk.injEq,
            true_and, and_true]
          all_goals omega
        | false =>
          rw [updateLoop_cons_wet tcont rest st u s names ho hh,
            ih _ (u + 1) s names]
          simp only [Bool.false_eq_true, if_false, List.length_cons, Prod.mk.injEq]
          obtain ⟨tgt, mf, tm⟩ := st
          rw [applyWet_cons]
          simp only [Prod.mk.injEq, eq_self_iff_true, true_and, and_true]
          all_goals omega
      · rw [secMatches_eq_false_ne ho hh, secSkipped_mismatch tcont ho hh]
        simp only [Bool.false_eq_true, if_false, eq_self_iff_true, if_true]
        rw [updateLoop_cons_skip dry tcont rest st u s names ho hh,
          ih st u (s + 1) (names ++ [name])]
        cases dry with
        | true =>
          simp only [eq_self_iff_true, if_true, List.length_cons, Prod.mk.injEq,
            List.append_assoc, List.singleton_append, true_and, and_true]
          omega
        | false =>
          simp only [Bool.false_eq_true, if_false, List.length_cons, Prod.mk.injEq,
            List.append_assoc, List.singleton_append, true_and, and_true]
          omega

theorem parseDoc_render {d : MdDoc} (h : WfParse d) :
    parseDoc (renderDoc d) = d.blocks.map fun p => (p.1, joinLines p.2) := by
  obtain ⟨hpre, hblocks, hnd⟩ := h
  by_cases hre : renderLines d = []
  · have h1 : flatBlocks d.blocks = [] := (List.append_eq_nil.mp hre).2
    have h2 : d.blocks = [] := by
      cases hb : d.blocks with
      | nil => rfl
      | cons p bs =>
        obtain ⟨m, c⟩ := p
        rw [hb, flatBlocks_cons] at h1
        exact absurd h1 (List.cons_ne_nil _ _)
    rw [h2, renderDoc, hre]
    rfl
  · have hnl : ∀ l ∈ renderLines d, '\n' ∉ l := by
      intro l hl
      rcases List.mem_append.mp hl with h1 | h1
      · exact contentLineOk_nl (hpre l h1)
      · rcases mem_flatBlocks.mp h1 with ⟨p, hp, h2 | h2⟩
        · exact h2 ▸ nl_not_mem_h2hdr (nl_not_mem_of_wfName (hblocks p hp).1)
        · exact contentLineOk_nl ((hblocks p hp).2 l h2)
    rw [renderDoc, parseDoc, split_join hre hnl]
    show parseLoop (d.preamble ++ flatBlocks d.blocks) none [] [] = _
    rw [parseLoop_skip_pre (fun l hl => contentLineOk_nostart (hpre l hl))]
    cases hb : d.blocks with
    | nil => rfl
    | cons p bs =>
      obtain ⟨m, c⟩ := p
      rw [hb] at hblocks hnd
      have hwfm : wfName m = true := (hblocks (m, c) (List.mem_cons_self _ _)).1
      have hcok : ∀ l ∈ c, contentLineOk l = true :=
        (hblocks (m, c) (List.mem_cons_self _ _)).2
      rw [flatBlocks_cons, parseLoop_start_none (isSectionStart_h2hdr hwfm),
        h2hdr_drop3, pystrip_of_wfName hwfm,
        parseLoop_content (fun l hl => contentLineOk_nostart (hcok l hl))]
      rw [keysOf_cons, List.nodup_cons] at hnd
      rw [parseLoop_flat m ([] ++ c) []
        (fun q hq => hblocks q (List.mem_cons_of_mem _ hq)) hnd.2
        (by simp [keysOf_nil])
        (fun k hk => ⟨by simp [keysOf_nil], fun hh => hnd.1 (hh ▸ hk)⟩)]
      simp



/-! ## Lemmas: update_file -/

theorem update_file_no_target {st : SyncState} (dry : Bool) (h : st.target = none) :
    update_file st dry = (st, 0, 0, []) := by
  simp only [update_file, h]

theorem update_file_no_meta {st : SyncState} (dry : Bool)
    (h : load_metadata st.meta = none) :
    update_file st dry = (st, 0, 0, []) := by
  cases ht : st.target with
  | none => exact update_file_no_target dry ht
  | some tgt => simp only [update_file, ht, h]

theorem update_file_no_template {st : SyncState} (dry : Bool)
    (h : st.template = none) :
    update_file st dry = (st, 0, 0, []) := by
  cases ht : st.target with
  | none => exact update_file_no_target dry ht
  | some tgt =>
    cases hm : load_metadata st.meta with
    | none => exact update_file_no_meta dry hm
    | some secs => simp only [update_file, ht, hm, h]

theorem update_file_run (tgt tpl : Str) (recs : List (Str × Str)) (dry : Bool) :
    update_file ⟨some tgt, .valid (some recs), some tpl⟩ dry =
      ((if dry then (⟨some tgt, .valid (some recs), some tpl⟩ : SyncState)
        else applyWet ⟨some tgt, .valid (some recs), some tpl⟩
          (refreshedOf recs (parseDoc tgt) (parseDoc tpl))),
       (refreshedOf recs (parseDoc tgt) (parseDoc tpl)).length,
       (skippedOf recs (parseDoc tgt) (parseDoc tpl)).length,
       skippedOf recs (parseDoc tgt) (parseDoc tpl)) := by
  show updateLoop recs (parseDoc tgt) dry (parseDoc tpl)
    ⟨some tgt, .valid (some recs), some tpl⟩ 0 0 [] = _
  rw [updateLoop_spec]
  simp only [Nat.zero_add, List.nil_append]

theorem wfParse_of_wfDoc {d : MdDoc} (h : WfDoc d) : WfParse d := by
  obtain ⟨hpre, hblocks, hnd⟩ := h
  refine ⟨?_, ?_, hnd⟩
  · intro l hl
    have h1 := hpre l hl
    simp only [contentLineOk, Bool.and_eq_true, Bool.not_eq_true']
    refine ⟨h1.1, ?_⟩
    rcases hs : isSectionStart l with _ | _
    · rfl
    · rw [isSectionStart_imp_startsH2 hs] at h1
      exact absurd h1.2 (by simp)
  · intro p hp
    exact ⟨(hblocks p hp).1,
      fun l hl => contentLineOk_of_lineOk ((hblocks p hp).2.2 l hl)⟩

theorem alookup_map_keyfun {α β : Type} (k : Str) (g : Str → α → β)
    (l : List (Str × α)) :
    alookup k (l.map fun p => (p.1, g p.1 p.2)) = (alookup k l).map (g k) := by
  induction l with
  | nil => rfl
  | cons p rest ih =>
    obtain ⟨k1, v1⟩ := p
    show alookup k ((k1, g k1 v1) :: _) = _
    rw [alookup_cons, alookup_cons]
    by_cases hk : k1 = k
    · subst hk
      rw [if_pos rfl, if_pos rfl]
      rfl
    · rw [if_neg hk, if_neg hk, ih]

theorem keysOf_mapBlocks (d : MdDoc) (lst : List (Str × Str)) :
    keysOf (mapBlocks d lst).blocks = keysOf d.blocks := by
  show List.map _ (List.map _ _) = _
  rw [List.map_map]
  apply List.map_congr_left
  intro p _
  rfl

theorem alookup_mapBlocks (d : MdDoc) (lst : List (Str × Str)) (m : Str) :
    alookup m (mapBlocks d lst).blocks =
      (alookup m d.blocks).map fun c =>
        match alookup m lst with
        | some t => splitLines t
        | none => c := by
  obtain ⟨pre, bs⟩ := d
  show alookup m (bs.map _) = (alookup m bs).map _
  induction bs with
  | nil => rfl
  | cons q bs1 ih =>
    obtain ⟨k1, c1⟩ := q
    show alookup m ((k1, _) :: _) = _
    rw [alookup_cons, alookup_cons]
    by_cases hk : k1 = m
    · subst hk
      rw [if_pos rfl, if_pos rfl]
      rfl
    · rw [if_neg hk, if_neg hk, ih]

theorem wfDoc_mapBlocks {d : MdDoc} {lst : List (Str × Str)} (h : WfDoc d)
    (hT : ∀ p ∈ lst, ∀ l ∈ splitLines p.2, startsH2 l = false ∧ startsH1 l = false) :
    WfDoc (mapBlocks d lst) := by
  obtain ⟨hpre, hblocks, hnd⟩ := h
  refine ⟨hpre, ?_, ?_⟩
  · intro q hq
    rcases List.mem_map.mp hq with ⟨p, hp, hfq⟩
    cases ha : alookup p.1 lst with
    | none =>
      rw [← hfq]
      simp only [ha]
      exact ⟨(hblocks p hp).1, (hblocks p hp).2.1, (hblocks p hp).2.2⟩
    | some t =>
      rw [← hfq]
      simp only [ha]
      refine ⟨(hblocks p hp).1, splitLines_ne_nil t, ?_⟩
      intro l hl
      have hnl := nlFree_iff.mpr (mem_splitLines_nl hl)
      have ht2 := hT (p.1, t) (mem_of_alookup_eq_some ha) l hl
      simp [lineOk, hnl, ht2.1, ht2.2]
  · show (keysOf _).Nodup
    rw [keysOf_mapBlocks]
    exact hnd

theorem refreshed_keys_nodup (origSecs curSecs tplSecs : List (Str × Str))
    (h : (keysOf tplSecs).Nodup) :
    (keysOf (refreshedOf origSecs curSecs tplSecs)).Nodup :=
  h.sublist ((List.filter_sublist _).map Prod.fst)

theorem tpl_mem_facts {de : MdDoc} (hde : WfDoc de) {p : Str × Str}
    (hp : p ∈ parseDoc (renderDoc de)) :
    ∃ c, (p.1, c) ∈ de.blocks ∧ p.2 = joinLines c ∧ c ≠ [] ∧
      (∀ l ∈ c, lineOk l = true) ∧ splitLines p.2 = c := by
  rw [parseDoc_render (wfParse_of_wfDoc hde)] at hp
  rcases List.mem_map.mp hp with ⟨q, hq, hfq⟩
  obtain ⟨n, c⟩ := q
  subst hfq
  have hb := hde.2.1 (n, c) hq
  refine ⟨c, hq, rfl, hb.2.1, hb.2.2, ?_⟩
  show splitLines (joinLines c) = c
  exact split_join hb.2.1 fun l hl => lineOk_nl (hb.2.2 l hl)

theorem tpl_content_ok {de : MdDoc} (hde : WfDoc de) {p : Str × Str}
    (hp : p ∈ parseDoc (renderDoc de)) :
    ∀ l ∈ splitLines p.2, startsH2 l = false ∧ startsH1 l = false := by
  rcases tpl_mem_facts hde hp with ⟨c, _, _, _, hok, hsplit⟩
  rw [hsplit]
  intro l hl
  exact ⟨lineOk_noH2 (hok l hl), lineOk_noH1 (hok l hl)⟩

theorem update_file_wet_render {dt de : MdDoc} (recs : List (Str × Str))
    (hdt : WfDoc dt) (hde : WfDoc de) :
    update_file ⟨some (renderDoc dt), .valid (some recs), some (renderDoc de)⟩ false =
      (⟨some (renderDoc (mapBlocks dt
          (refreshedOf recs (parseDoc (renderDoc dt)) (parseDoc (renderDoc de))))),
        .valid (some (foldRecs recs
          (refreshedOf recs (parseDoc (renderDoc dt)) (parseDoc (renderDoc de))))),
        some (renderDoc de)⟩,
       (refreshedOf recs (parseDoc (renderDoc dt)) (parseDoc (renderDoc de))).length,
       (skippedOf recs (parseDoc (renderDoc dt)) (parseDoc (renderDoc de))).length,
       skippedOf recs (parseDoc (renderDoc dt)) (parseDoc (renderDoc de))) := by
  rw [update_file_run]
  simp only [Bool.false_eq_true, if_false]
  have h1 : ∀ p ∈ refreshedOf recs (parseDoc (renderDoc dt)) (parseDoc (renderDoc de)),
      ∀ l ∈ splitLines p.2, startsH2 l = false ∧ startsH1 l = false :=
    fun p hp => tpl_content_ok hde (List.mem_of_mem_filter hp)
  have h2 : (keysOf (refreshedOf recs (parseDoc (renderDoc dt))
      (parseDoc (renderDoc de)))).Nodup :=
    refreshed_keys_nodup _ _ _ (keysOf_parseDoc_nodup _)
  rw [applyWet_render _ dt recs _ hdt h1 h2]

theorem eq_of_mem_key_nodup {α : Type} {l : List (Str × α)} {q : Str × α} {m : Str}
    {v : α} (hnd : (keysOf l).Nodup) (hq : q ∈ l) (hm : (m, v) ∈ l)
    (hk : q.1 = m) : q = (m, v) := by
  obtain ⟨a, b⟩ := q
  simp only at hk
  subst hk
  have h1 : alookup a l = some b := alookup_of_mem_nodup hnd hq
  have h2 : alookup a l = some v := alookup_of_mem_nodup hnd hm
  rw [h1] at h2
  rw [Option.some.inj h2]

theorem alookup_filter_none {l : List (Str × Str)} {m v : Str}
    {p : Str × Str → Bool} (hnd : (keysOf l).Nodup)
    (h : alookup m l = some v) (hp : p (m, v) = false) :
    alookup m (l.filter p) = none := by
  rw [alookup_eq_none]
  intro hmem
  rcases List.mem_map.mp hmem with ⟨q, hq, hqfst⟩
  have hq2 := List.mem_filter.mp hq
  have heq : q = (m, v) :=
    eq_of_mem_key_nodup hnd hq2.1 (mem_of_alookup_eq_some h) hqfst
  rw [heq, hp] at hq2
  exact absurd hq2.2 (by simp)

theorem alookup_filter_some {l : List (Str × Str)} {m v : Str}
    {p : Str × Str → Bool} (hnd : (keysOf l).Nodup)
    (h : alookup m l = some v) (hp : p (m, v) = true) :
    alookup m (l.filter p) = some v :=
  alookup_of_mem_nodup (hnd.sublist ((List.filter_sublist _).map Prod.fst))
    (List.mem_filter.mpr ⟨mem_of_alookup_eq_some h, hp⟩)


theorem alookup_parse_render {d : MdDoc} (h : WfParse d) (m : Str) :
    alookup m (parseDoc (renderDoc d)) = (alookup m d.blocks).map joinLines := by
  rw [parseDoc_render h]
  exact alookup_map_value m joinLines d.blocks

theorem mapBlocks_idem (d : MdDoc) (lst : List (Str × Str)) :
    mapBlocks (mapBlocks d lst) lst = mapBlocks d lst := by
  obtain ⟨pre, bs⟩ := d
  show MdDoc.mk pre _ = MdDoc.mk pre _
  congr 1
  show List.map _ (List.map _ bs) = List.map _ bs
  rw [List.map_map]
  apply List.map_congr_left
  intro p _
  simp only [Function.comp_apply]
  cases h : alookup p.1 lst with
  | none => simp [h]
  | some t => simp [h]

theorem not_mem_skippedOf {origSecs curSecs tplSecs : List (Str × Str)} {n : Str}
    (hnd : (keysOf tplSecs).Nodup)
    (h : ∀ T0, alookup n tplSecs = some T0 →
      secSkipped origSecs curSecs (n, T0) = false) :
    n ∉ skippedOf origSecs curSecs tplSecs := by
  intro hmem
  rcases List.mem_map.mp hmem with ⟨q, hq, hq1⟩
  have hq2 := List.mem_filter.mp hq
  have hl : alookup n tplSecs = some q.2 := by
    rw [← hq1]
    refine alookup_of_mem_nodup hnd ?_
    obtain ⟨a, b⟩ := q
    exact hq2.1
  have hfalse := h q.2 hl
  have hq3 : q = (n, q.2) := by
    obtain ⟨a, b⟩ := q
    simp only at hq1
    rw [hq1]
  rw [hq3, hfalse] at hq2
  exact absurd hq2.2 (by simp)

theorem update_file_dry_frame (st : SyncState) : (update_file st true).1 = st := by
  rcases st with ⟨tgtQ, mf, tplQ⟩
  cases tgtQ with
  | none => rfl
  | some tgt =>
    cases mf with
    | absent => rfl
    | malformed => rfl
    | valid secsQ =>
      cases tplQ with
      | none => rfl
      | some tpl =>
        cases secsQ with
        | none =>
          show (updateLoop [] (parseDoc tgt) true (parseDoc tpl) _ 0 0 []).1 = _
          rw [updateLoop_spec]
          simp only [eq_self_iff_true, if_true]
        | some recs =>
          show (updateLoop recs (parseDoc tgt) true (parseDoc tpl) _ 0 0 []).1 = _
          rw [updateLoop_spec]
          simp only [eq_self_iff_true, if_true]

theorem update_file_dry_run (tgt tpl : Str) (recs : List (Str × Str)) :
    update_file ⟨some tgt, .valid (some recs), some tpl⟩ true =
      (⟨some tgt, .valid (some recs), some tpl⟩,
       (refreshedOf recs (parseDoc tgt) (parseDoc tpl)).length,
       (skippedOf recs (parseDoc tgt) (parseDoc tpl)).length,
       skippedOf recs (parseDoc tgt) (parseDoc tpl)) := by
  rw [update_file_run]
  simp only [eq_self_iff_true, if_true]

theorem keysOf_map_keyfun {α β : Type} (g : Str → α → β) (l : List (Str × α)) :
    keysOf (l.map fun p => (p.1, g p.1 p.2)) = keysOf l := by
  show List.map _ (List.map _ _) = _
  rw [List.map_map]
  apply List.map_congr_left
  intro p _
  rfl


theorem keysOf_map_value {α β : Type} (g : α → β) (l : List (Str × α)) :
    keysOf (l.map fun p => (p.1, g p.2)) = keysOf l := by
  show List.map _ (List.map _ _) = _
  rw [List.map_map]
  apply List.map_congr_left
  intro p _
  rfl

/-- FIPS 180-4 test vector: the embedded SHA-256 hashes the empty string to
the standard digest. -/
theorem sha256_empty_vector :
    compute_section_hash [] =
      ("e3b0c44298fc1c149afbf4c8996fb92427ae41e4649b934ca495991b7852b855").data := by
  decide

/-- FIPS 180-4 test vector: the embedded SHA-256 hashes "abc" to the
standard digest. -/
theorem sha256_abc_vector :
    compute_section_hash ("abc").data =
      ("ba7816bf8f01cfea414140de5dae2223b00361a396177a9cb410ff61f20015ad").data := by
  decide

/-! ## The claims -/

/-- C5: `load_metadata` returns `none` (rather than raising) whenever the
record file does not exist or fails to parse, and an update pass over such a
document aborts non-fatally, returning `(0, 0, [])` and leaving the whole
file-system state untouched.  (Both functions are total, so no exception can
escape.) -/
theorem claim_C5 (st : SyncState) (dry : Bool)
    (h : st.meta = MetaFile.absent ∨ st.meta = MetaFile.malformed) :
    load_metadata st.meta = none ∧ update_file st dry = (st, 0, 0, []) := by
  have hl : load_metadata st.meta = none := by
    rcases h with h | h <;> rw [h] <;> rfl
  exact ⟨hl, update_file_no_meta dry hl⟩

theorem claim_C5_witness :
    ((⟨some ("## A\nx").data, .malformed, some ("## A\ny").data⟩ : SyncState).meta =
        MetaFile.absent ∨
      (⟨some ("## A\nx").data, .malformed, some ("## A\ny").data⟩ : SyncState).meta =
        MetaFile.malformed) ∧
    load_metadata
      (⟨some ("## A\nx").data, .malformed, some ("## A\ny").data⟩ : SyncState).meta = none ∧
    update_file ⟨some ("## A\nx").data, .malformed, some ("## A\ny").data⟩ false =
      (⟨some ("## A\nx").data, .malformed, some ("## A\ny").data⟩, 0, 0, []) :=
  ⟨Or.inr rfl, claim_C5 _ false (Or.inr rfl)⟩

/-- C9: a dry run never mutates the file-system state (for every state, the
returned state is the input state), and on a tracked document it still counts
exactly the template blocks whose current fingerprint equals the recorded one
(`refreshedOf`) in the refreshed count, reporting the same skipped data as a
real run would. -/
theorem claim_C9 :
    (∀ st : SyncState, (update_file st true).1 = st) ∧
    (∀ (tgt tpl : Str) (recs : List (Str × Str)),
      update_file ⟨some tgt, .valid (some recs), some tpl⟩ true =
        (⟨some tgt, .valid (some recs), some tpl⟩,
         (refreshedOf recs (parseDoc tgt) (parseDoc tpl)).length,
         (skippedOf recs (parseDoc tgt) (parseDoc tpl)).length,
         skippedOf recs (parseDoc tgt) (parseDoc tpl))) :=
  ⟨update_file_dry_frame, update_file_dry_run⟩

/-- C4 counterexample: with a valid record tracking only `A`, updating the
untracked name `B` does not leave the record unchanged — the Python
assignment `metadata["sections"][name] = new_hash` inserts `B`. -/
theorem claim_C4_cex :
    update_metadata_hash (.valid (some [(("A").data, ("hA").data)]))
        ("B").data ("hB").data =
      .valid (some [(("A").data, ("hA").data), (("B").data, ("hB").data)]) ∧
    update_metadata_hash (.valid (some [(("A").data, ("hA").data)]))
        ("B").data ("hB").data ≠
      .valid (some [(("A").data, ("hA").data)]) := by
  constructor <;> decide

/-- C4 amended: `update_metadata_hash` raises no error (it is total) and is a
no-op exactly when the record file is missing, malformed, or lacks a
`sections` mapping; when a sections mapping exists but the name is untracked,
the name is appended with the new fingerprint (the record changes). -/
theorem claim_C4_amended (name newHash : Str) (s : List (Str × Str))
    (h : name ∉ keysOf s) :
    update_metadata_hash .absent name newHash = .absent ∧
    update_metadata_hash .malformed name newHash = .malformed ∧
    update_metadata_hash (.valid none) name newHash = .valid none ∧
    update_metadata_hash (.valid (some s)) name newHash =
      .valid (some (s ++ [(name, newHash)])) := by
  refine ⟨rfl, rfl, rfl, ?_⟩
  show MetaFile.valid (some (dictInsert name newHash s)) = _
  rw [dictInsert_of_not_mem _ h]

theorem claim_C4_amended_witness :
    ("B").data ∉ keysOf [(("A").data, ("hA").data)] ∧
    (update_metadata_hash .absent ("B").data ("hB").data = .absent ∧
     update_metadata_hash .malformed ("B").data ("hB").data = .malformed ∧
     update_metadata_hash (.valid none) ("B").data ("hB").data = .valid none ∧
     update_metadata_hash (.valid (some [(("A").data, ("hA").data)]))
         ("B").data ("hB").data =
       .valid (some ([(("A").data, ("hA").data)] ++ [(("B").data, ("hB").data)]))) :=
  ⟨by decide, claim_C4_amended ("B").data ("hB").data _ (by decide)⟩

/-- C2 counterexample: in `parse_markdown_sections` a line beginning with the
higher-level marker `"# "` does NOT end the current section's content
collection — the `# H1` line and the text after it stay inside block `A`'s
returned content, contradicting the claim that they are not part of any
block. -/
theorem claim_C2_cex :
    parseDoc ("## A\nx\n# H1\ny").data = [(("A").data, ("x\n# H1\ny").data)] ∧
    parseDoc ("## A\nx\n# H1\ny").data ≠ [(("A").data, ("x").data)] := by
  constructor <;> decide

/-- C2 amended: only a line matching `"## "` plus a word character ends the
current section's content collection (and simultaneously begins a new named
section); lines beginning with a higher-level marker, or with `"## "` not
followed by a word character, are collected as ordinary content.  Stated as:
on any document whose preamble and block contents contain no `^## \w` line —
they may freely contain `# ...` and bare `## ` lines — the parser returns
exactly the laid-out blocks, those lines included. -/
theorem claim_C2_amended (d : MdDoc) (h : WfParse d) :
    parseDoc (renderDoc d) = d.blocks.map fun p => (p.1, joinLines p.2) :=
  parseDoc_render h

theorem claim_C2_amended_witness :
    WfParse ⟨[("# T").data],
      [(("A").data, [("x").data, ("# H1").data, ("## ").data, ("y").data])]⟩ ∧
    parseDoc (renderDoc ⟨[("# T").data],
        [(("A").data, [("x").data, ("# H1").data, ("## ").data, ("y").data])]⟩) =
      [(("A").data, [("x").data, ("# H1").data, ("## ").data, ("y").data])].map
        (fun p => (p.1, joinLines p.2)) :=
  ⟨by decide, claim_C2_amended _ (by decide)⟩

/-- C8 counterexample: plain concatenation of `"## " + name + "\n" + content`
blocks does not round-trip: with pairs `[("A", "x"), ("B", "y")]` the second
header lands on the same line as `"x"`, so the parser returns a single block
`("A", "x## B\ny")`. -/
theorem claim_C8_cex :
    parseDoc (buildConcat [(("A").data, ("x").data), (("B").data, ("y").data)]) ≠
      [(("A").data, ("x").data), (("B").data, ("y").data)] ∧
    parseDoc (buildConcat [(("A").data, ("x").data), (("B").data, ("y").data)]) =
      [(("A").data, ("x## B\ny").data)] := by
  constructor <;> decide

/-- C8 amended: when the blocks are joined so each `"## " + name` header
starts on a fresh line, and the names are usable section names (word-character
start, strip-invariant, single-line, pairwise distinct) and no content line
matches `^## \w`, the parser recovers exactly the `(name, content)` pairs in
order. -/
theorem claim_C8_amended (ps : List (Str × Str))
    (hname : ∀ p ∈ ps, wfName p.1 = true)
    (hcontent : ∀ p ∈ ps, ∀ l ∈ splitLines p.2, isSectionStart l = false)
    (hnd : (keysOf ps).Nodup) :
    parseDoc (buildJoined ps) = ps := by
  have hb : buildJoined ps =
      renderDoc ⟨[], ps.map fun p => (p.1, splitLines p.2)⟩ := by
    show joinLines _ = joinLines _
    congr 1
    show (ps.flatMap fun p => h2hdr p.1 :: splitLines p.2) =
      flatBlocks (ps.map fun p => (p.1, splitLines p.2))
    clear hname hcontent hnd
    induction ps with
    | nil => rfl
    | cons p ps1 ih =>
      rw [List.flatMap_cons, List.map_cons, flatBlocks_cons, ih]
      rfl
  have hwf : WfParse ⟨[], ps.map fun p => (p.1, splitLines p.2)⟩ := by
    refine ⟨?_, ?_, ?_⟩
    · intro l hl
      simp at hl
    · intro q hq
      rcases List.mem_map.mp hq with ⟨p, hp, hfq⟩
      subst hfq
      refine ⟨hname p hp, ?_⟩
      intro l hl
      simp only [contentLineOk, Bool.and_eq_true, Bool.not_eq_true']
      exact ⟨nlFree_iff.mpr (mem_splitLines_nl hl), hcontent p hp l hl⟩
    · show (keysOf (ps.map fun p => (p.1, splitLines p.2))).Nodup
      rw [keysOf_map_value]
      exact hnd
  rw [hb, parseDoc_render hwf]
  show List.map _ (List.map _ ps) = ps
  rw [List.map_map]
  have hid : ∀ p ∈ ps,
      ((fun q : Str × List Str => (q.1, joinLines q.2)) ∘
        fun p : Str × Str => (p.1, splitLines p.2)) p = p := by
    intro p _
    simp only [Function.comp_apply]
    rw [join_split]
  rw [List.map_congr_left hid, List.map_id']

theorem claim_C8_amended_witness :
    (∀ p ∈ [(("A").data, ("x").data), (("B").data, ("y\n# h").data)],
      wfName p.1 = true) ∧
    (∀ p ∈ [(("A").data, ("x").data), (("B").data, ("y\n# h").data)],
      ∀ l ∈ splitLines p.2, isSectionStart l = false) ∧
    (keysOf [(("A").data, ("x").data), (("B").data, ("y\n# h").data)]).Nodup ∧
    parseDoc (buildJoined [(("A").data, ("x").data), (("B").data, ("y\n# h").data)]) =
      [(("A").data, ("x").data), (("B").data, ("y\n# h").data)] :=
  ⟨by decide, by decide, by decide,
    claim_C8_amended _ (by decide) (by decide) (by decide)⟩


/-- C10 counterexample: `replace_section_in_file` does not stop after the
first span — in `"## A\nx\n## A\ny"` the second `## A` line is itself replaced
again, so the lines from the first boundary onward are NOT reproduced
verbatim. -/
theorem claim_C10_cex :
    replace_section_in_file (some ("## A\nx\n## A\ny").data) ("A").data ("z").data =
      some ("## A\nz\n## A\nz").data ∧
    replace_section_in_file (some ("## A\nx\n## A\ny").data) ("A").data ("z").data ≠
      some ("## A\nz\n## A\ny").data := by
  constructor <;> decide

/-- C10 amended: with no line equal to `"## " + name` the document content is
unchanged; and every maximal span starting at a line equal to the header is
replaced, so lines before the first header line and from the first later
boundary line onward are reproduced verbatim provided the header does not
occur again in that suffix. -/
theorem claim_C10_amended (content name T : Str) (pre mid post : List Str)
    (hnl : ∀ l ∈ pre ++ h2hdr name :: (mid ++ post), '\n' ∉ l)
    (hpre : ∀ l ∈ pre, l ≠ h2hdr name)
    (hmid : ∀ l ∈ mid, (startsH2 l || startsH1 l) = false)
    (hpost : ∀ l ∈ post, l ≠ h2hdr name)
    (hhead : post = [] ∨ ∃ b rest2, post = b :: rest2 ∧ (startsH2 b || startsH1 b) = true) :
    ((∀ l ∈ splitLines content, l ≠ h2hdr name) →
      replace_section_in_file (some content) name T = some content) ∧
    replace_section_in_file (some (joinLines (pre ++ h2hdr name :: (mid ++ post))))
        name T =
      some (joinLines (pre ++ h2hdr name :: (splitLines T ++ post))) := by
  constructor
  · intro hno
    show some (joinLines (replAux (h2hdr name) (splitLines T) false
      (splitLines content))) = _
    have h1 : replAux (h2hdr name) (splitLines T) false (splitLines content) =
        splitLines content := by
      have h2 := @replAux_no_hd (h2hdr name) (splitLines content) (splitLines T) hno []
      rw [List.append_nil, replAux_nil, List.append_nil] at h2
      exact h2
    rw [h1, join_split]
  · have hne : pre ++ h2hdr name :: (mid ++ post) ≠ [] := by
      intro hh
      exact absurd (List.append_eq_nil.mp hh).2 (List.cons_ne_nil _ _)
    show some (joinLines (replAux (h2hdr name) (splitLines T) false
      (splitLines (joinLines (pre ++ h2hdr name :: (mid ++ post)))))) = _
    rw [split_join hne hnl, replAux_no_hd _ hpre, replAux_false_cons, if_pos rfl,
      replAux_true_eq_skipTo, skipTo_all_drop hmid]
    rcases hhead with hp0 | ⟨b, rest2, hp1, hb⟩
    · subst hp0
      rw [skipTo_nil, replAux_nil, List.append_nil]
    · subst hp1
      rw [skipTo_boundary_cons _ hb]
      have h3 : replAux (h2hdr name) (splitLines T) false (b :: rest2) =
          b :: rest2 := by
        have h2 := @replAux_no_hd (h2hdr name) (b :: rest2) (splitLines T) hpost []
        rw [List.append_nil, replAux_nil, List.append_nil] at h2
        exact h2
      rw [h3]

theorem claim_C10_amended_witness :
    (∀ l ∈ [("intro").data] ++ h2hdr ("A").data ::
        ([("old1").data, ("old2").data] ++ [("## B").data, ("b").data]),
      '\n' ∉ l) ∧
    ((∀ l ∈ splitLines ("## B\nx").data, l ≠ h2hdr ("A").data) →
      replace_section_in_file (some ("## B\nx").data) ("A").data ("new\nstuff").data =
        some ("## B\nx").data) ∧
    replace_section_in_file
        (some (joinLines ([("intro").data] ++ h2hdr ("A").data ::
          ([("old1").data, ("old2").data] ++ [("## B").data, ("b").data]))))
        ("A").data ("new\nstuff").data =
      some (joinLines ([("intro").data] ++ h2hdr ("A").data ::
        (splitLines ("new\nstuff").data ++ [("## B").data, ("b").data]))) :=
  ⟨by decide,
    claim_C10_amended ("## B\nx").data ("A").data ("new\nstuff").data
      [("intro").data] [("old1").data, ("old2").data] [("## B").data, ("b").data]
      (by decide) (by decide) (by decide) (by decide)
      (Or.inr ⟨("## B").data, [("b").data], rfl, by decide⟩)⟩


/-- C6: on well-formed documents, a tracked template block whose recorded
fingerprint differs from the fingerprint of the target's current content is
never touched: after `update_file` (dry-run or not) its parsed text in the
target is unchanged, its recorded fingerprint is unchanged, its name is in
the returned skipped-names list, and the skipped count equals that list's
length. -/
theorem claim_C6 (dt de : MdDoc) (recs : List (Str × Str)) (dry : Bool)
    (n f T : Str) (hdt : WfDoc dt) (hde : WfDoc de)
    (htpl : alookup n (parseDoc (renderDoc de)) = some T)
    (hrec : alookup n recs = some f)
    (hmis : compute_section_hash
      ((alookup n (parseDoc (renderDoc dt))).getD []) ≠ f) :
    ∃ st1 u s names,
      update_file ⟨some (renderDoc dt), .valid (some recs), some (renderDoc de)⟩ dry =
        (st1, u, s, names) ∧
      n ∈ names ∧ s = names.length ∧
      (∃ t1, st1.target = some t1 ∧
        alookup n (parseDoc t1) = alookup n (parseDoc (renderDoc dt))) ∧
      (∃ recs1, st1.meta = .valid (some recs1) ∧ alookup n recs1 = some f) := by
  have htplnd := keysOf_parseDoc_nodup (renderDoc de)
  have hmem : (n, T) ∈ parseDoc (renderDoc de) := mem_of_alookup_eq_some htpl
  have hskip : secSkipped recs (parseDoc (renderDoc dt)) (n, T) = true :=
    secSkipped_mismatch T hrec hmis
  have hnotm : secMatches recs (parseDoc (renderDoc dt)) (n, T) = false :=
    secMatches_eq_false_ne hrec hmis
  have hmemsk : n ∈ skippedOf recs (parseDoc (renderDoc dt)) (parseDoc (renderDoc de)) :=
    List.mem_map.mpr ⟨(n, T), List.mem_filter.mpr ⟨hmem, hskip⟩, rfl⟩
  cases dry with
  | true =>
    exact ⟨_, _, _, _, update_file_dry_run _ _ _, hmemsk, rfl,
      ⟨_, rfl, rfl⟩, ⟨recs, rfl, hrec⟩⟩
  | false =>
    have hok : ∀ p ∈ refreshedOf recs (parseDoc (renderDoc dt))
        (parseDoc (renderDoc de)),
        ∀ l ∈ splitLines p.2, startsH2 l = false ∧ startsH1 l = false :=
      fun p hp => tpl_content_ok hde (List.mem_of_mem_filter hp)
    have hlstnd : (keysOf (refreshedOf recs (parseDoc (renderDoc dt))
        (parseDoc (renderDoc de)))).Nodup :=
      refreshed_keys_nodup _ _ _ htplnd
    have hlst_none : alookup n (refreshedOf recs (parseDoc (renderDoc dt))
        (parseDoc (renderDoc de))) = none :=
      alookup_filter_none htplnd htpl hnotm
    refine ⟨_, _, _, _, update_file_wet_render recs hdt hde, hmemsk, rfl, ?_, ?_⟩
    · refine ⟨_, rfl, ?_⟩
      rw [alookup_parse_render (wfParse_of_wfDoc (wfDoc_mapBlocks hdt hok)) n,
        alookup_mapBlocks, alookup_parse_render (wfParse_of_wfDoc hdt) n]
      simp only [hlst_none]
      cases alookup n dt.blocks <;> rfl
    · refine ⟨_, rfl, ?_⟩
      rw [alookup_foldRecs _ _ hlstnd]
      simp only [hlst_none]
      exact hrec

theorem claim_C6_witness :
    WfDoc (⟨[], [(("A").data, [("EDIT").data])]⟩ : MdDoc) ∧
    WfDoc (⟨[], [(("A").data, [("new").data])]⟩ : MdDoc) ∧
    alookup ("A").data
      (parseDoc (renderDoc (⟨[], [(("A").data, [("new").data])]⟩ : MdDoc))) =
      some ("new").data ∧
    alookup ("A").data [(("A").data, ("h0").data)] = some ("h0").data ∧
    compute_section_hash
      ((alookup ("A").data (parseDoc (renderDoc
        (⟨[], [(("A").data, [("EDIT").data])]⟩ : MdDoc)))).getD []) ≠ ("h0").data ∧
    (∃ st1 u s names,
      update_file ⟨some (renderDoc (⟨[], [(("A").data, [("EDIT").data])]⟩ : MdDoc)),
          .valid (some [(("A").data, ("h0").data)]),
          some (renderDoc (⟨[], [(("A").data, [("new").data])]⟩ : MdDoc))⟩ false =
        (st1, u, s, names) ∧
      ("A").data ∈ names ∧ s = names.length ∧
      (∃ t1, st1.target = some t1 ∧
        alookup ("A").data (parseDoc t1) =
          alookup ("A").data (parseDoc (renderDoc
            (⟨[], [(("A").data, [("EDIT").data])]⟩ : MdDoc)))) ∧
      (∃ recs1, st1.meta = .valid (some recs1) ∧
        alookup ("A").data recs1 = some ("h0").data)) :=
  ⟨by decide, by decide, by decide, by decide, by decide,
    claim_C6 ⟨[], [(("A").data, [("EDIT").data])]⟩
      ⟨[], [(("A").data, [("new").data])]⟩ [(("A").data, ("h0").data)] false
      ("A").data ("h0").data ("new").data
      (by decide) (by decide) (by decide) (by decide) (by decide)⟩

/-- C7: on well-formed documents, a template block whose name has no
fingerprint in the record is classified new-in-template: after `update_file`
(dry-run or not) the block's parsed text in the target is unchanged, no
fingerprint is written for it (its record lookup stays `none`, so every later
pass classifies it as new again), and its name is not in the skipped list. -/
theorem claim_C7 (dt de : MdDoc) (recs : List (Str × Str)) (dry : Bool)
    (n T : Str) (hdt : WfDoc dt) (hde : WfDoc de)
    (htpl : alookup n (parseDoc (renderDoc de)) = some T)
    (hrec : alookup n recs = none) :
    ∃ st1 u s names,
      update_file ⟨some (renderDoc dt), .valid (some recs), some (renderDoc de)⟩ dry =
        (st1, u, s, names) ∧
      n ∉ names ∧
      (∃ t1, st1.target = some t1 ∧
        alookup n (parseDoc t1) = alookup n (parseDoc (renderDoc dt))) ∧
      (∃ recs1, st1.meta = .valid (some recs1) ∧ alookup n recs1 = none) := by
  have htplnd := keysOf_parseDoc_nodup (renderDoc de)
  have hnmem : n ∉ skippedOf recs (parseDoc (renderDoc dt))
      (parseDoc (renderDoc de)) :=
    not_mem_skippedOf htplnd (fun T0 _ => secSkipped_none T0 hrec)
  have hnotm : secMatches recs (parseDoc (renderDoc dt)) (n, T) = false :=
    secMatches_eq_false_none hrec
  cases dry with
  | true =>
    exact ⟨_, _, _, _, update_file_dry_run _ _ _, hnmem,
      ⟨_, rfl, rfl⟩, ⟨recs, rfl, hrec⟩⟩
  | false =>
    have hok : ∀ p ∈ refreshedOf recs (parseDoc (renderDoc dt))
        (parseDoc (renderDoc de)),
        ∀ l ∈ splitLines p.2, startsH2 l = false ∧ startsH1 l = false :=
      fun p hp => tpl_content_ok hde (List.mem_of_mem_filter hp)
    have hlstnd : (keysOf (refreshedOf recs (parseDoc (renderDoc dt))
        (parseDoc (renderDoc de)))).Nodup :=
      refreshed_keys_nodup _ _ _ htplnd
    have hlst_none : alookup n (refreshedOf recs (parseDoc (renderDoc dt))
        (parseDoc (renderDoc de))) = none :=
      alookup_filter_none htplnd htpl hnotm
    refine ⟨_, _, _, _, update_file_wet_render recs hdt hde, hnmem, ?_, ?_⟩
    · refine ⟨_, rfl, ?_⟩
      rw [alookup_parse_render (wfParse_of_wfDoc (wfDoc_mapBlocks hdt hok)) n,
        alookup_mapBlocks, alookup_parse_render (wfParse_of_wfDoc hdt) n]
      simp only [hlst_none]
      cases alookup n dt.blocks <;> rfl
    · refine ⟨_, rfl, ?_⟩
      rw [alookup_foldRecs _ _ hlstnd]
      simp only [hlst_none]
      exact hrec

theorem claim_C7_witness :
    WfDoc (⟨[], [(("B").data, [("x").data])]⟩ : MdDoc) ∧
    WfDoc (⟨[], [(("A").data, [("new").data])]⟩ : MdDoc) ∧
    alookup ("A").data
      (parseDoc (renderDoc (⟨[], [(("A").data, [("new").data])]⟩ : MdDoc))) =
      some ("new").data ∧
    alookup ("A").data ([] : List (Str × Str)) = none ∧
    (∃ st1 u s names,
      update_file ⟨some (renderDoc (⟨[], [(("B").data, [("x").data])]⟩ : MdDoc)),
          .valid (some ([] : List (Str × Str))),
          some (renderDoc (⟨[], [(("A").data, [("new").data])]⟩ : MdDoc))⟩ false =
        (st1, u, s, names) ∧
      ("A").data ∉ names ∧
      (∃ t1, st1.target = some t1 ∧
        alookup ("A").data (parseDoc t1) =
          alookup ("A").data (parseDoc (renderDoc
            (⟨[], [(("B").data, [("x").data])]⟩ : MdDoc)))) ∧
      (∃ recs1, st1.meta = .valid (some recs1) ∧
        alookup ("A").data recs1 = none)) :=
  ⟨by decide, by decide, by decide, by decide,
    claim_C7 ⟨[], [(("B").data, [("x").data])]⟩
      ⟨[], [(("A").data, [("new").data])]⟩ [] false
      ("A").data ("new").data
      (by decide) (by decide) (by decide) (by decide)⟩


/-- C3 counterexample: start from the exact install state of the document
`"## A\nx\n# End"` (the record holds the hash of A's parsed content
`"x\n# End"`), and let the template body for `A` become `"new"`.  The
non-dry update refreshes `A`: it rewrites the file to `"## A\nnew\n# End"`
and records the hash of `"new"` — but `A`'s content as it then stands on
disk parses as `"new\n# End"`, whose hash differs.  The invariant is broken
immediately after a refresh. -/
theorem claim_C3_cex :
    (install_file ("## A\nx\n# End").data).meta =
      .valid (some [(("A").data, compute_section_hash ("x\n# End").data)]) ∧
    (update_file ⟨some ("## A\nx\n# End").data,
        .valid (some [(("A").data, compute_section_hash ("x\n# End").data)]),
        some ("## A\nnew").data⟩ false).1.target =
      some ("## A\nnew\n# End").data ∧
    (update_file ⟨some ("## A\nx\n# End").data,
        .valid (some [(("A").data, compute_section_hash ("x\n# End").data)]),
        some ("## A\nnew").data⟩ false).1.meta =
      .valid (some [(("A").data, compute_section_hash ("new").data)]) ∧
    alookup ("A").data (parseDoc ("## A\nnew\n# End").data) =
      some ("new\n# End").data ∧
    compute_section_hash ("new\n# End").data ≠ compute_section_hash ("new").data := by
  refine ⟨?_, ?_, ?_, ?_, ?_⟩ <;> decide

/-- C3 amended: immediately after install the invariant holds for every
entry (each fingerprint is the hash of that block's parsed content in the
just-written target); immediately after a non-dry-run update, it holds for
every refreshed block of a well-formed document that is present in the
target: the new fingerprint is the hash of the block's new on-disk content,
which is the template's content.  (On ill-formed spans — a block ended by a
`# ` line — the update half fails; see the counterexample.) -/
theorem claim_C3_amended :
    (∀ (tpl n f : Str) (secs : List (Str × Str)),
      (install_file tpl).meta = .valid (some secs) →
      (n, f) ∈ secs →
      ∃ c, alookup n (parseDoc tpl) = some c ∧ f = compute_section_hash c) ∧
    (∀ (dt de : MdDoc) (recs : List (Str × Str)) (n f T : Str),
      WfDoc dt → WfDoc de →
      alookup n (parseDoc (renderDoc de)) = some T →
      alookup n recs = some f →
      compute_section_hash ((alookup n (parseDoc (renderDoc dt))).getD []) = f →
      n ∈ keysOf dt.blocks →
      ∃ st1 u s names recs1 t1,
        update_file ⟨some (renderDoc dt), .valid (some recs), some (renderDoc de)⟩
          false = (st1, u, s, names) ∧
        st1.target = some t1 ∧ st1.meta = .valid (some recs1) ∧
        alookup n (parseDoc t1) = some T ∧
        alookup n recs1 = some (compute_section_hash T)) := by
  constructor
  · intro tpl n f secs hmeta hmem
    have hsecs : secs = (parseDoc tpl).map fun p => (p.1, compute_section_hash p.2) := by
      have h1 : MetaFile.valid (some ((parseDoc tpl).map fun p =>
          (p.1, compute_section_hash p.2))) = .valid (some secs) := hmeta
      exact (Option.some.inj (MetaFile.valid.inj h1)).symm
    subst hsecs
    rcases List.mem_map.mp hmem with ⟨p, hp, hfp⟩
    obtain ⟨m, c⟩ := p
    rw [Prod.mk.injEq] at hfp
    obtain ⟨h3, h4⟩ := hfp
    subst h3
    exact ⟨c, alookup_of_mem_nodup (keysOf_parseDoc_nodup tpl) hp, h4.symm⟩
  · intro dt de recs n f T hdt hde htpl hrec hmatch hnk
    have htplnd := keysOf_parseDoc_nodup (renderDoc de)
    have hsm : secMatches recs (parseDoc (renderDoc dt)) (n, T) = true :=
      secMatches_eq_true hrec hmatch
    have hlst_some : alookup n (refreshedOf recs (parseDoc (renderDoc dt))
        (parseDoc (renderDoc de))) = some T :=
      alookup_filter_some htplnd htpl hsm
    have hok : ∀ p ∈ refreshedOf recs (parseDoc (renderDoc dt))
        (parseDoc (renderDoc de)),
        ∀ l ∈ splitLines p.2, startsH2 l = false ∧ startsH1 l = false :=
      fun p hp => tpl_content_ok hde (List.mem_of_mem_filter hp)
    have hlstnd : (keysOf (refreshedOf recs (parseDoc (renderDoc dt))
        (parseDoc (renderDoc de)))).Nodup :=
      refreshed_keys_nodup _ _ _ htplnd
    obtain ⟨c0, hc0⟩ : ∃ c0, alookup n dt.blocks = some c0 := by
      cases hh : alookup n dt.blocks with
      | none => exact absurd hnk (alookup_eq_none.mp hh)
      | some c0 => exact ⟨c0, rfl⟩
    refine ⟨_, _, _, _, _, _, update_file_wet_render recs hdt hde, rfl, rfl, ?_, ?_⟩
    · rw [alookup_parse_render (wfParse_of_wfDoc (wfDoc_mapBlocks hdt hok)) n,
        alookup_mapBlocks, hc0]
      simp only [hlst_some, Option.map_some']
      rw [join_split]
    · rw [alookup_foldRecs _ _ hlstnd]
      simp only [hlst_some]

theorem claim_C3_amended_witness :
    (∃ c, alookup ("A").data (parseDoc ("## A\nx").data) = some c ∧
      compute_section_hash ("x").data = compute_section_hash c) ∧
    (∃ st1 u s names recs1 t1,
      update_file ⟨some (renderDoc (⟨[], [(("A").data, [("x").data])]⟩ : MdDoc)),
          .valid (some [(("A").data, compute_section_hash ("x").data)]),
          some (renderDoc (⟨[], [(("A").data, [("new").data])]⟩ : MdDoc))⟩ false =
        (st1, u, s, names) ∧
      st1.target = some t1 ∧ st1.meta = .valid (some recs1) ∧
      alookup ("A").data (parseDoc t1) = some ("new").data ∧
      alookup ("A").data recs1 = some (compute_section_hash ("new").data)) :=
  ⟨claim_C3_amended.1 ("## A\nx").data ("A").data
      (compute_section_hash ("x").data)
      [(("A").data, compute_section_hash ("x").data)] (by decide) (by decide),
    claim_C3_amended.2 ⟨[], [(("A").data, [("x").data])]⟩
      ⟨[], [(("A").data, [("new").data])]⟩
      [(("A").data, compute_section_hash ("x").data)]
      ("A").data (compute_section_hash ("x").data) ("new").data
      (by decide) (by decide) (by decide) (by decide) (by decide) (by decide)⟩

/-- C1 counterexample: a tracked one-section document in sync with its
template.  The second non-dry run reports a refreshed count of 1, not 0 —
the code re-refreshes (and re-counts) every section whose fingerprint still
matches the record, on every run. -/
theorem claim_C1_cex :
    (update_file (update_file ⟨some ("## A\nx").data,
        .valid (some [(("A").data, compute_section_hash ("x").data)]),
        some ("## A\nx").data⟩ false).1 false).2.1 = 1 ∧
    (update_file (update_file ⟨some ("## A\nx").data,
        .valid (some [(("A").data, compute_section_hash ("x").data)]),
        some ("## A\nx").data⟩ false).1 false).2.1 ≠ 0 := by
  constructor <;> decide


/-- C1 amended: on well-formed documents whose record only tracks names
present in the target, two consecutive non-dry update runs with no
intervening edits return *identical* results: the second run reports the same
refreshed count as the first (zero only when the first run refreshed
nothing — not zero in general, refuting the original claim) and the same
skipped data, and it leaves the target document and the Sync Record exactly
unchanged (refresh is idempotent in state, not in count). -/
theorem claim_C1_amended (dt de : MdDoc) (recs : List (Str × Str))
    (hdt : WfDoc dt) (hde : WfDoc de)
    (hsub : ∀ m ∈ keysOf recs, m ∈ keysOf dt.blocks) :
    ∃ st1 u s names,
      update_file ⟨some (renderDoc dt), .valid (some recs), some (renderDoc de)⟩
        false = (st1, u, s, names) ∧
      update_file st1 false = (st1, u, s, names) := by
  have htplnd : (keysOf (parseDoc (renderDoc de))).Nodup :=
    keysOf_parseDoc_nodup _
  have hlstnd : (keysOf (refreshedOf recs (parseDoc (renderDoc dt))
      (parseDoc (renderDoc de)))).Nodup :=
    refreshed_keys_nodup _ _ _ htplnd
  have hok : ∀ p ∈ refreshedOf recs (parseDoc (renderDoc dt))
      (parseDoc (renderDoc de)),
      ∀ l ∈ splitLines p.2, startsH2 l = false ∧ startsH1 l = false :=
    fun p hp => tpl_content_ok hde (List.mem_of_mem_filter hp)
  have hd1 : WfDoc (mapBlocks dt (refreshedOf recs (parseDoc (renderDoc dt))
      (parseDoc (renderDoc de)))) := wfDoc_mapBlocks hdt hok
  have hrun1 := update_file_wet_render recs hdt hde
  have hpred : ∀ p ∈ parseDoc (renderDoc de),
      (secMatches (foldRecs recs (refreshedOf recs (parseDoc (renderDoc dt))
          (parseDoc (renderDoc de))))
        (parseDoc (renderDoc (mapBlocks dt (refreshedOf recs
          (parseDoc (renderDoc dt)) (parseDoc (renderDoc de)))))) p =
        secMatches recs (parseDoc (renderDoc dt)) p) ∧
      (secSkipped (foldRecs recs (refreshedOf recs (parseDoc (renderDoc dt))
          (parseDoc (renderDoc de))))
        (parseDoc (renderDoc (mapBlocks dt (refreshedOf recs
          (parseDoc (renderDoc dt)) (parseDoc (renderDoc de)))))) p =
        secSkipped recs (parseDoc (renderDoc dt)) p) := by
    intro p hp
    obtain ⟨m, T⟩ := p
    have hcur2 : alookup m (parseDoc (renderDoc (mapBlocks dt (refreshedOf recs
        (parseDoc (renderDoc dt)) (parseDoc (renderDoc de)))))) =
        ((alookup m dt.blocks).map fun c =>
          match alookup m (refreshedOf recs (parseDoc (renderDoc dt))
            (parseDoc (renderDoc de))) with
          | some t => splitLines t
          | none => c).map joinLines := by
      rw [alookup_parse_render (wfParse_of_wfDoc hd1) m, alookup_mapBlocks]
    have hcur1l : alookup m (parseDoc (renderDoc dt)) =
        (alookup m dt.blocks).map joinLines :=
      alookup_parse_render (wfParse_of_wfDoc hdt) m
    have hrecs1 := @alookup_foldRecs
      (refreshedOf recs (parseDoc (renderDoc dt)) (parseDoc (renderDoc de)))
      recs m hlstnd
    cases hml : alookup m (refreshedOf recs (parseDoc (renderDoc dt))
        (parseDoc (renderDoc de))) with
    | none =>
      have hc : alookup m (parseDoc (renderDoc (mapBlocks dt (refreshedOf recs
          (parseDoc (renderDoc dt)) (parseDoc (renderDoc de)))))) =
          alookup m (parseDoc (renderDoc dt)) := by
        rw [hcur2, hcur1l]
        simp only [hml]
        cases alookup m dt.blocks <;> rfl
      have hr : alookup m (foldRecs recs (refreshedOf recs
          (parseDoc (renderDoc dt)) (parseDoc (renderDoc de)))) =
          alookup m recs := by
        rw [hrecs1]
        simp only [hml]
      constructor
      · simp only [secMatches, hr, hc]
      · simp only [secSkipped, hr, hc]
    | some t =>
      have hmem : (m, t) ∈ refreshedOf recs (parseDoc (renderDoc dt))
          (parseDoc (renderDoc de)) := mem_of_alookup_eq_some hml
      have hfl := List.mem_filter.mp hmem
      have htT : t = T := by
        have h1 : alookup m (parseDoc (renderDoc de)) = some t :=
          alookup_of_mem_nodup htplnd hfl.1
        have h2 : alookup m (parseDoc (renderDoc de)) = some T :=
          alookup_of_mem_nodup htplnd hp
        rw [h1] at h2
        exact Option.some.inj h2
      subst htT
      have hsm : secMatches recs (parseDoc (renderDoc dt)) (m, t) = true := hfl.2
      obtain ⟨oh, hoh, hhash⟩ : ∃ oh, alookup m recs = some oh ∧
          compute_section_hash
            ((alookup m (parseDoc (renderDoc dt))).getD []) = oh := by
        cases hor : alookup m recs with
        | none =>
          rw [secMatches_eq_false_none hor] at hsm
          exact absurd hsm (by decide)
        | some oh =>
          refine ⟨oh, rfl, ?_⟩
          simp only [secMatches, hor, beq_iff_eq] at hsm
          exact hsm
      have hmk : m ∈ keysOf dt.blocks := hsub m (key_mem_of_alookup_eq_some hoh)
      obtain ⟨c0, hc0⟩ : ∃ c0, alookup m dt.blocks = some c0 := by
        cases hh : alookup m dt.blocks with
        | none => exact absurd hmk (alookup_eq_none.mp hh)
        | some c0 => exact ⟨c0, rfl⟩
      have hcur2v : alookup m (parseDoc (renderDoc (mapBlocks dt (refreshedOf recs
          (parseDoc (renderDoc dt)) (parseDoc (renderDoc de)))))) = some t := by
        rw [hcur2, hc0]
        simp only [hml, Option.map_some']
        rw [join_split]
      have hrecs1v : alookup m (foldRecs recs (refreshedOf recs
          (parseDoc (renderDoc dt)) (parseDoc (renderDoc de)))) =
          some (compute_section_hash t) := by
        rw [hrecs1]
        simp only [hml]
      constructor
      · rw [hsm]
        exact secMatches_eq_true hrecs1v (by rw [hcur2v, Option.getD_some])
      · rw [secSkipped_match t hrecs1v (by rw [hcur2v, Option.getD_some]),
          secSkipped_match t hoh hhash]
  have hlst2 : refreshedOf (foldRecs recs (refreshedOf recs
      (parseDoc (renderDoc dt)) (parseDoc (renderDoc de))))
      (parseDoc (renderDoc (mapBlocks dt (refreshedOf recs
        (parseDoc (renderDoc dt)) (parseDoc (renderDoc de))))))
      (parseDoc (renderDoc de)) =
      refreshedOf recs (parseDoc (renderDoc dt)) (parseDoc (renderDoc de)) :=
    List.filter_congr fun p hp => (hpred p hp).1
  have hsk2 : skippedOf (foldRecs recs (refreshedOf recs
      (parseDoc (renderDoc dt)) (parseDoc (renderDoc de))))
      (parseDoc (renderDoc (mapBlocks dt (refreshedOf recs
        (parseDoc (renderDoc dt)) (parseDoc (renderDoc de))))))
      (parseDoc (renderDoc de)) =
      skippedOf recs (parseDoc (renderDoc dt)) (parseDoc (renderDoc de)) := by
    show (List.filter _ _).map _ = (List.filter _ _).map _
    rw [List.filter_congr fun p hp => (hpred p hp).2]
  have hrun2 := update_file_wet_render (foldRecs recs (refreshedOf recs
    (parseDoc (renderDoc dt)) (parseDoc (renderDoc de)))) hd1 hde
  rw [hlst2, hsk2] at hrun2
  have hfix1 := mapBlocks_idem dt (refreshedOf recs (parseDoc (renderDoc dt))
    (parseDoc (renderDoc de)))
  have hfix2 : foldRecs (foldRecs recs (refreshedOf recs
      (parseDoc (renderDoc dt)) (parseDoc (renderDoc de))))
      (refreshedOf recs (parseDoc (renderDoc dt)) (parseDoc (renderDoc de))) =
      foldRecs recs (refreshedOf recs (parseDoc (renderDoc dt))
        (parseDoc (renderDoc de))) := by
    apply foldRecs_id
    intro p hp
    rw [alookup_foldRecs _ _ hlstnd]
    have hlp : alookup p.1 (refreshedOf recs (parseDoc (renderDoc dt))
        (parseDoc (renderDoc de))) = some p.2 := by
      refine alookup_of_mem_nodup hlstnd ?_
      obtain ⟨a, b⟩ := p
      exact hp
    simp only [hlp]
  refine ⟨_, _, _, _, hrun1, ?_⟩
  rw [hrun2, hfix1, hfix2]

theorem claim_C1_amended_witness :
    WfDoc (⟨[], [(("A").data, [("x").data]), (("B").data, [("y").data])]⟩ : MdDoc) ∧
    WfDoc (⟨[], [(("A").data, [("x2").data])]⟩ : MdDoc) ∧
    (∀ m ∈ keysOf [(("A").data, compute_section_hash ("x").data)],
      m ∈ keysOf (⟨[], [(("A").data, [("x").data]),
        (("B").data, [("y").data])]⟩ : MdDoc).blocks) ∧
    (∃ st1 u s names,
      update_file ⟨some (renderDoc (⟨[], [(("A").data, [("x").data]),
            (("B").data, [("y").data])]⟩ : MdDoc)),
          .valid (some [(("A").data, compute_section_hash ("x").data)]),
          some (renderDoc (⟨[], [(("A").data, [("x2").data])]⟩ : MdDoc))⟩ false =
        (st1, u, s, names) ∧
      update_file st1 false = (st1, u, s, names)) :=
  ⟨by decide, by decide, by decide,
    claim_C1_amended
      ⟨[], [(("A").data, [("x").data]), (("B").data, [("y").data])]⟩
      ⟨[], [(("A").data, [("x2").data])]⟩
      [(("A").data, compute_section_hash ("x").data)]
      (by decide) (by decide) (by decide)⟩

end AiTooling


